import Mathlib

/-!
# b256: in-place grayscale of an RGBA8888 bitmap

A shallow embedding of the two native entry points

* `Java_br_com_b256_core_engine_Engine_grayscale` (core/engine/src/main/cpp/engine.cpp)
* `Java_br_com_b256_core_ndk_NativeLib_grayscale` (core/ndk/src/main/cpp/ndk.cpp)

The platform surface (`AndroidBitmap_getInfo`, `AndroidBitmap_lockPixels`,
`AndroidBitmap_unlockPixels`, `__android_log_print`) is modelled by explicit
state: a `Bitmap` carries the outcome of the two fallible platform calls and the
bytes behind the pointer that `lockPixels` hands out; every platform call and
every 32-bit memory access is recorded in a trace of `Event`s.

Memory is a list of bytes addressed from the `pixels` pointer.  A 32-bit access
at byte offset `off` touches the bytes `off .. off + 3`, little-endian (every
Android ABI is little-endian).  An access outside the list is undefined
behaviour in the source; here it makes the run return `none`.

Machine integers: `width`, `height`, `stride` are `uint32_t` fields and are
kept as natural numbers; the loop counters `x`, `y` are `int`, which agree with
the naturals below `2^31`.  The conversions that the source performs (to
`uint8_t`, to `uint32_t`) are written as explicit `% 256` and `% 2 ^ 32`.
-/

namespace B256

/-! ## Platform data -/

/-- Modelled from the spec: the format tag `ANDROID_BITMAP_FORMAT_RGBA_8888` of the
platform header `android/bitmap.h`, which is not among the sources ("32-bit RGBA
with 8 bits per channel").  The number is the header's; the proofs use only that
a format is or is not this tag. -/
def ANDROID_BITMAP_FORMAT_RGBA_8888 : Int := 1

/-- Modelled from the spec: the format tag `ANDROID_BITMAP_FORMAT_RGB_565` of the
platform header, one of the tags that are not RGBA8888. -/
def ANDROID_BITMAP_FORMAT_RGB_565 : Int := 4

/-- Modelled from the spec: the struct `AndroidBitmapInfo` of the platform header,
filled in by `AndroidBitmap_getInfo`, with the four fields the specification lists
for `getInfo`: `{width, height, stride, format}`. -/
structure AndroidBitmapInfo where
  width : Nat
  height : Nat
  stride : Nat
  format : Int
deriving DecidableEq

/-- Observable actions of one call: the three calls of the platform bitmap
abstraction, the log lines handed to `__android_log_print` (tag and text), and
the 32-bit loads and stores of the pixel loop with their byte offset from the
`pixels` pointer. -/
inductive Event where
  | getInfo : Event
  | log : String → String → Event
  | lockPixels : Event
  | load : Nat → Event
  | store : Nat → Event
  | unlockPixels : Event
deriving DecidableEq

/-- The `jobject bitmap` argument as the native code sees it through the platform
calls: what `AndroidBitmap_getInfo` reports and returns (negative on failure),
what `AndroidBitmap_lockPixels` returns (negative on failure), and the bytes
behind the pointer it hands out. -/
structure Bitmap where
  info : AndroidBitmapInfo
  getInfoResult : Int
  lockPixelsResult : Int
  pixels : List (Fin 256)
deriving DecidableEq

/-- State threaded through a call: pixel memory and the trace so far. -/
structure Run where
  pixels : List (Fin 256)
  trace : List Event
deriving DecidableEq

/-! ## Memory accesses -/

/-- Byte `k` (0 = least significant) of a word. -/
def byteOf (w k : Nat) : Fin 256 :=
  ⟨(w / 256 ^ k) % 256, Nat.mod_lt _ (by decide)⟩

/-- A `uint32_t` load at byte offset `off`; `none` when out of range. -/
def loadWord (mem : List (Fin 256)) (off : Nat) : Option Nat :=
  match mem[off]?, mem[off + 1]?, mem[off + 2]?, mem[off + 3]? with
  | some b0, some b1, some b2, some b3 =>
      some (b0.val + 256 * b1.val + 65536 * b2.val + 16777216 * b3.val)
  | _, _, _, _ => none

/-- A `uint32_t` store at byte offset `off`; `none` when out of range. -/
def storeWord (mem : List (Fin 256)) (off w : Nat) : Option (List (Fin 256)) :=
  if off + 4 ≤ mem.length then
    some ((((mem.set off (byteOf w 0)).set (off + 1) (byteOf w 1)).set
      (off + 2) (byteOf w 2)).set (off + 3) (byteOf w 3))
  else none

/-! ## Channels of a pixel word, as the data model names them -/

/-- Bits 24-31. -/
def alphaOf (p : Nat) : Nat := p / 2 ^ 24 % 256
/-- Bits 16-23. -/
def redOf (p : Nat) : Nat := p / 2 ^ 16 % 256
/-- Bits 8-15. -/
def greenOf (p : Nat) : Nat := p / 2 ^ 8 % 256
/-- Bits 0-7. -/
def blueOf (p : Nat) : Nat := p % 256

/-! ## engine.cpp -/

namespace Engine

/-- Log tag of engine.cpp (`LOG_TAG`). -/
def LOG_TAG : String := "engine"

/-- Lines 33-41 of engine.cpp: the word written to `line[x]` for the word
`pixel` read from it. -/
def grayPixel (pixel : Nat) : Nat :=
  let r := ((pixel >>> 16) &&& 0xFF) % 256
  let g := ((pixel >>> 8) &&& 0xFF) % 256
  let b := (pixel &&& 0xFF) % 256
  let gray := ((r + g + b) / 3) % 256
  ((0xFF <<< 24) ||| (gray <<< 16) ||| (gray <<< 8) ||| gray) % 2 ^ 32

/-- Body of the inner loop at column `x` of the row starting at byte `line`. -/
def pixelStep (line x : Nat) (s : Run) : Option Run :=
  match loadWord s.pixels (line + 4 * x) with
  | none => none
  | some pixel =>
    match storeWord s.pixels (line + 4 * x) (grayPixel pixel) with
    | none => none
    | some mem =>
      some ⟨mem, s.trace ++ [Event.load (line + 4 * x), Event.store (line + 4 * x)]⟩

/-- The loop `for (int x = 0; x < info.width; x++)`, from column `x` with `n`
iterations left. -/
def rowLoop (line : Nat) : Nat → Nat → Run → Option Run
  | _, 0, s => some s
  | x, n + 1, s => (pixelStep line x s).bind (rowLoop line (x + 1) n)

/-- The loop `for (int y = 0; y < info.height; y++)`, with `line` the byte
offset of the current row and `n` iterations left; each iteration ends with
`line = (uint32_t *) ((char *) line + info.stride)`. -/
def lineLoop (info : AndroidBitmapInfo) : Nat → Nat → Run → Option Run
  | _, 0, s => some s
  | line, n + 1, s =>
    (rowLoop line 0 info.width s).bind (lineLoop info (line + info.stride) n)

end Engine

/-- The function `Java_br_com_b256_core_engine_Engine_grayscale` of engine.cpp. -/
def Java_br_com_b256_core_engine_Engine_grayscale (bitmap : Bitmap) : Option Run :=
  if bitmap.getInfoResult < 0 then
    some ⟨bitmap.pixels,
      [Event.getInfo, Event.log Engine.LOG_TAG "Failed to get bitmap info"]⟩
  else if bitmap.info.format ≠ ANDROID_BITMAP_FORMAT_RGBA_8888 then
    some ⟨bitmap.pixels,
      [Event.getInfo, Event.log Engine.LOG_TAG "Unsupported format"]⟩
  else if bitmap.lockPixelsResult < 0 then
    some ⟨bitmap.pixels,
      [Event.getInfo, Event.lockPixels, Event.log Engine.LOG_TAG "Failed to lock pixels"]⟩
  else
    (Engine.lineLoop bitmap.info 0 bitmap.info.height
        ⟨bitmap.pixels, [Event.getInfo, Event.lockPixels]⟩).map
      (fun s => ⟨s.pixels, s.trace ++ [Event.unlockPixels]⟩)

/-! ## ndk.cpp -/

namespace Ndk

/-- Log tag of ndk.cpp (`LOG_TAG`). -/
def LOG_TAG : String := "NDK_Camera"

/-- Lines 33-41 of ndk.cpp: the word written to `line[x]` for the word `pixel`
read from it. -/
def grayPixel (pixel : Nat) : Nat :=
  let r := ((pixel >>> 16) &&& 0xFF) % 256
  let g := ((pixel >>> 8) &&& 0xFF) % 256
  let b := (pixel &&& 0xFF) % 256
  let gray := ((r + g + b) / 3) % 256
  ((0xFF <<< 24) ||| (gray <<< 16) ||| (gray <<< 8) ||| gray) % 2 ^ 32

/-- Body of the inner loop at column `x` of the row starting at byte `line`. -/
def pixelStep (line x : Nat) (s : Run) : Option Run :=
  match loadWord s.pixels (line + 4 * x) with
  | none => none
  | some pixel =>
    match storeWord s.pixels (line + 4 * x) (grayPixel pixel) with
    | none => none
    | some mem =>
      some ⟨mem, s.trace ++ [Event.load (line + 4 * x), Event.store (line + 4 * x)]⟩

/-- The loop `for (int x = 0; x < info.width; x++)`, from column `x` with `n`
iterations left. -/
def rowLoop (line : Nat) : Nat → Nat → Run → Option Run
  | _, 0, s => some s
  | x, n + 1, s => (pixelStep line x s).bind (rowLoop line (x + 1) n)

/-- The loop `for (int y = 0; y < info.height; y++)`, with `line` the byte
offset of the current row and `n` iterations left. -/
def lineLoop (info : AndroidBitmapInfo) : Nat → Nat → Run → Option Run
  | _, 0, s => some s
  | line, n + 1, s =>
    (rowLoop line 0 info.width s).bind (lineLoop info (line + info.stride) n)

end Ndk

/-- The function `Java_br_com_b256_core_ndk_NativeLib_grayscale` of ndk.cpp. -/
def Java_br_com_b256_core_ndk_NativeLib_grayscale (bitmap : Bitmap) : Option Run :=
  if bitmap.getInfoResult < 0 then
    some ⟨bitmap.pixels,
      [Event.getInfo, Event.log Ndk.LOG_TAG "Failed to get bitmap info"]⟩
  else if bitmap.info.format ≠ ANDROID_BITMAP_FORMAT_RGBA_8888 then
    some ⟨bitmap.pixels,
      [Event.getInfo, Event.log Ndk.LOG_TAG "Unsupported format"]⟩
  else if bitmap.lockPixelsResult < 0 then
    some ⟨bitmap.pixels,
      [Event.getInfo, Event.lockPixels, Event.log Ndk.LOG_TAG "Failed to lock pixels"]⟩
  else
    (Ndk.lineLoop bitmap.info 0 bitmap.info.height
        ⟨bitmap.pixels, [Event.getInfo, Event.lockPixels]⟩).map
      (fun s => ⟨s.pixels, s.trace ++ [Event.unlockPixels]⟩)

/-! ## Test buffers -/

/-- Bytes of a list of pixel words, little-endian, row after row. -/
def bytesOfWords : List Nat → List (Fin 256)
  | [] => []
  | w :: ws => byteOf w 0 :: byteOf w 1 :: byteOf w 2 :: byteOf w 3 :: bytesOfWords ws

/-- The 2x2 scenario of the specification: stride 8, RGBA8888. -/
def scenario2x2 : Bitmap :=
  { info := { width := 2, height := 2, stride := 8,
              format := ANDROID_BITMAP_FORMAT_RGBA_8888 },
    getInfoResult := 0,
    lockPixelsResult := 0,
    pixels := bytesOfWords [0xFF306090, 0xFF000000, 0xFFFFFFFF, 0xFF102030] }

/-- A 1x1 RGBA8888 buffer holding the half-transparent pixel `0x80102030`, whose
`lockPixels` call fails. -/
def lockFails1x1 : Bitmap :=
  { info := { width := 1, height := 1, stride := 4,
              format := ANDROID_BITMAP_FORMAT_RGBA_8888 },
    getInfoResult := 0,
    lockPixelsResult := -1,
    pixels := bytesOfWords [0x80102030] }

/-- A 1x1 RGBA8888 buffer holding the half-transparent pixel `0x80102030`; both
platform calls succeed. -/
def translucent1x1 : Bitmap :=
  { info := { width := 1, height := 1, stride := 4,
              format := ANDROID_BITMAP_FORMAT_RGBA_8888 },
    getInfoResult := 0,
    lockPixelsResult := 0,
    pixels := bytesOfWords [0x80102030] }

/-- A 1x1 buffer reporting the format `RGB_565` (two bytes of pixel data). -/
def rgb565_1x1 : Bitmap :=
  { info := { width := 1, height := 1, stride := 2,
              format := ANDROID_BITMAP_FORMAT_RGB_565 },
    getInfoResult := 0,
    lockPixelsResult := 0,
    pixels := [0x34, 0x12] }

/-- The 2x2 scenario when `AndroidBitmap_lockPixels` fails. -/
def lockFails2x2 : Bitmap :=
  { scenario2x2 with lockPixelsResult := -1 }

/-- A 1x2 RGBA8888 buffer whose reported stride (1 byte) is smaller than a row
(4 bytes): the two rows overlap in the bytes 1..3. -/
def overlap1x2 : Bitmap :=
  { info := { width := 1, height := 2, stride := 1,
              format := ANDROID_BITMAP_FORMAT_RGBA_8888 },
    getInfoResult := 0,
    lockPixelsResult := 0,
    pixels := [0, 0, 0, 0, 0] }

/-- A 2x2 RGBA8888 buffer with 4 bytes of padding after each row (stride 12);
the padding bytes are `0xAA .. 0xDD` and `0x11 .. 0x44`. -/
def padded2x2 : Bitmap :=
  { info := { width := 2, height := 2, stride := 12,
              format := ANDROID_BITMAP_FORMAT_RGBA_8888 },
    getInfoResult := 0,
    lockPixelsResult := 0,
    pixels := bytesOfWords [0xFF306090, 0x80000000, 0xDDCCBBAA,
                            0x00FFFFFF, 0xFF102030, 0x44332211] }

/-- What the 2x2 scenario returns: the four gray words and the trace of the call. -/
def scenario2x2Result : Run :=
  ⟨bytesOfWords [0xFF606060, 0xFF000000, 0xFFFFFFFF, 0xFF202020],
    [Event.getInfo, Event.lockPixels, Event.load 0, Event.store 0, Event.load 4,
      Event.store 4, Event.load 8, Event.store 8, Event.load 12, Event.store 12,
      Event.unlockPixels]⟩

/-- What `translucent1x1` returns. -/
def translucent1x1Result : Run :=
  ⟨bytesOfWords [0xFF202020],
    [Event.getInfo, Event.lockPixels, Event.load 0, Event.store 0, Event.unlockPixels]⟩

/-- What `padded2x2` returns: the four pixels gray, the padding words as they were. -/
def padded2x2Result : Run :=
  ⟨bytesOfWords [0xFF606060, 0xFF000000, 0xDDCCBBAA, 0xFFFFFFFF, 0xFF202020, 0x44332211],
    [Event.getInfo, Event.lockPixels, Event.load 0, Event.store 0, Event.load 4,
      Event.store 4, Event.load 12, Event.store 12, Event.load 16, Event.store 16,
      Event.unlockPixels]⟩

/-! ## Expected access traces -/

/-- Accesses of the inner loop from column `x`, `n` iterations: one load and one
store per pixel. -/
def rowAccesses (line : Nat) : Nat → Nat → List Event
  | _, 0 => []
  | x, n + 1 =>
    Event.load (line + 4 * x) :: Event.store (line + 4 * x) :: rowAccesses line (x + 1) n

/-- Accesses of the outer loop from the row at byte `line`, `n` rows. -/
def lineAccesses (info : AndroidBitmapInfo) : Nat → Nat → List Event
  | _, 0 => []
  | line, n + 1 => rowAccesses line 0 info.width ++ lineAccesses info (line + info.stride) n

/-! ## Comparing the two entry points -/

/-- The same event under the log tag `tag`: a log line keeps its text and takes
the tag, every other event is unchanged. -/
def retag (tag : String) : Event → Event
  | Event.log _ msg => Event.log tag msg
  | e => e

/-- A result with every log line of its trace put under the tag `tag`. -/
def retagRun (tag : String) (r : Run) : Run :=
  ⟨r.pixels, r.trace.map (retag tag)⟩

/-! ## Permuting the colour bytes of a pixel word -/

/-- Colour byte `i` of a pixel word: byte 0 is bits 0-7 (the code's `b`), byte 1
is bits 8-15 (`g`), byte 2 is bits 16-23 (`r`). -/
def colourOf (p : Nat) : Fin 3 → Nat
  | 0 => blueOf p
  | 1 => greenOf p
  | 2 => redOf p

/-- The pixel word `p` with its three colour bytes permuted by `σ`: byte `i` of
the result is byte `σ i` of `p`; the alpha byte stays. -/
def permuteColours (σ : Equiv.Perm (Fin 3)) (p : Nat) : Nat :=
  alphaOf p * 2 ^ 24 + colourOf p (σ 2) * 2 ^ 16 + colourOf p (σ 1) * 2 ^ 8 + colourOf p (σ 0)

/-! ## More test buffers -/

/-- The buffer `lockFails1x1` with the alpha byte of its pixel changed from 0x80
to 0x40: the pixel `0x40102030`, lockPixels failing. -/
def lockFails1x1Alpha40 : Bitmap :=
  { lockFails1x1 with pixels := bytesOfWords [0x40102030] }

/-- The buffer `translucent1x1` with the alpha byte of its pixel changed from
0x80 to 0x40: the pixel `0x40102030`, both platform calls succeeding. -/
def translucent1x1Alpha40 : Bitmap :=
  { translucent1x1 with pixels := bytesOfWords [0x40102030] }

/-- What `overlap1x2` returns: the bytes `00 55 55 55 FF`. -/
def overlap1x2Result : Run :=
  ⟨[0, 85, 85, 85, 255],
    [Event.getInfo, Event.lockPixels, Event.load 0, Event.store 0, Event.load 1,
      Event.store 1, Event.unlockPixels]⟩

/-- A 2x2 RGBA8888 buffer whose reported stride (4 bytes) is a multiple of 4 but
smaller than a row (8 bytes): row 0 is the words at 0 and 4, row 1 the words at 4
and 8, so the word at 4 is visited twice. -/
def overlapAligned2x2 : Bitmap :=
  { info := { width := 2, height := 2, stride := 4,
              format := ANDROID_BITMAP_FORMAT_RGBA_8888 },
    getInfoResult := 0,
    lockPixelsResult := 0,
    pixels := bytesOfWords [0x80306090, 0x00102030, 0x40FFFFFF] }

/-- What `overlapAligned2x2` returns. -/
def overlapAligned2x2Result : Run :=
  ⟨bytesOfWords [0xFF606060, 0xFF202020, 0xFFFFFFFF],
    [Event.getInfo, Event.lockPixels, Event.load 0, Event.store 0, Event.load 4,
      Event.store 4, Event.load 4, Event.store 4, Event.load 8, Event.store 8,
      Event.unlockPixels]⟩

/-- The 2x2 scenario after one call: four solid gray pixels. -/
def gray2x2 : Bitmap :=
  { scenario2x2 with pixels := scenario2x2Result.pixels }

/-! ## Memory lemmas -/

theorem storeWord_isSome {mem : List (Fin 256)} {off : Nat} (w : Nat)
    (h : off + 4 ≤ mem.length) : ∃ mem', storeWord mem off w = some mem' := by
  simp [storeWord, h]

theorem storeWord_length {mem mem' : List (Fin 256)} {off w : Nat}
    (h : storeWord mem off w = some mem') : mem'.length = mem.length := by
  unfold storeWord at h
  split at h
  · cases h; simp
  · cases h

theorem storeWord_inRange {mem mem' : List (Fin 256)} {off w : Nat}
    (h : storeWord mem off w = some mem') : off + 4 ≤ mem.length := by
  unfold storeWord at h
  split at h
  · assumption
  · cases h

theorem storeWord_get_outside {mem mem' : List (Fin 256)} {off w : Nat}
    (h : storeWord mem off w = some mem') (o : Nat) (ho : o < off ∨ off + 4 ≤ o) :
    mem'[o]? = mem[o]? := by
  unfold storeWord at h
  split at h
  · cases h
    simp only [List.getElem?_set]
    have h0 : ¬ off = o := by omega
    have h1 : ¬ off + 1 = o := by omega
    have h2 : ¬ off + 2 = o := by omega
    have h3 : ¬ off + 3 = o := by omega
    simp [h0, h1, h2, h3]
  · cases h

theorem storeWord_get_inside {mem mem' : List (Fin 256)} {off w : Nat}
    (h : storeWord mem off w = some mem') (k : Nat) (hk : k < 4) :
    mem'[off + k]? = some (byteOf w k) := by
  unfold storeWord at h
  split at h
  · rename_i hlen
    cases h
    simp only [List.getElem?_set, List.length_set]
    have : k = 0 ∨ k = 1 ∨ k = 2 ∨ k = 3 := by omega
    rcases this with rfl | rfl | rfl | rfl
    · have : off < mem.length := by omega
      simp [this]
    · have : off + 1 < mem.length := by omega
      simp [this]
    · have : off + 2 < mem.length := by omega
      simp [this]
    · have : off + 3 < mem.length := by omega
      simp [this]
  · cases h

theorem loadWord_congr {mem mem' : List (Fin 256)} {off : Nat}
    (h : ∀ k, k < 4 → mem'[off + k]? = mem[off + k]?) : loadWord mem' off = loadWord mem off := by
  have h0 := h 0 (by decide)
  have h1 := h 1 (by decide)
  have h2 := h 2 (by decide)
  have h3 := h 3 (by decide)
  simp only [Nat.add_zero] at h0
  simp only [loadWord, h0, h1, h2, h3]

theorem loadWord_of_bytes {mem : List (Fin 256)} {off : Nat} {b0 b1 b2 b3 : Fin 256}
    (h0 : mem[off]? = some b0) (h1 : mem[off + 1]? = some b1)
    (h2 : mem[off + 2]? = some b2) (h3 : mem[off + 3]? = some b3) :
    loadWord mem off = some (b0.val + 256 * b1.val + 65536 * b2.val + 16777216 * b3.val) := by
  simp only [loadWord, h0, h1, h2, h3]

theorem loadWord_isSome {mem : List (Fin 256)} {off : Nat} (h : off + 4 ≤ mem.length) :
    ∃ w, loadWord mem off = some w ∧ w < 2 ^ 32 := by
  have h0 : off < mem.length := by omega
  have h1 : off + 1 < mem.length := by omega
  have h2 : off + 2 < mem.length := by omega
  have h3 : off + 3 < mem.length := by omega
  refine ⟨_, loadWord_of_bytes (List.getElem?_eq_getElem h0) (List.getElem?_eq_getElem h1)
    (List.getElem?_eq_getElem h2) (List.getElem?_eq_getElem h3), ?_⟩
  have := (mem[off]).isLt
  have := (mem[off + 1]).isLt
  have := (mem[off + 2]).isLt
  have := (mem[off + 3]).isLt
  omega

theorem loadWord_inRange {mem : List (Fin 256)} {off w : Nat}
    (h : loadWord mem off = some w) : off + 4 ≤ mem.length := by
  by_contra hc
  have : mem[off + 3]? = none := List.getElem?_eq_none (by omega)
  unfold loadWord at h
  rw [this] at h
  split at h <;> simp_all

theorem byteOf_word (w : Nat) :
    (byteOf w 0).val + 256 * (byteOf w 1).val + 65536 * (byteOf w 2).val
      + 16777216 * (byteOf w 3).val = w % 2 ^ 32 := by
  simp only [byteOf]
  omega

theorem loadWord_storeWord {mem mem' : List (Fin 256)} {off w : Nat}
    (h : storeWord mem off w = some mem') : loadWord mem' off = some (w % 2 ^ 32) := by
  have h0 := storeWord_get_inside h 0 (by decide)
  have h1 := storeWord_get_inside h 1 (by decide)
  have h2 := storeWord_get_inside h 2 (by decide)
  have h3 := storeWord_get_inside h 3 (by decide)
  simp only [Nat.add_zero] at h0
  rw [loadWord_of_bytes h0 h1 h2 h3, byteOf_word]

/-! ## The pixel arithmetic -/

set_option maxRecDepth 100000 in
theorem or_gray : ∀ g : Fin 256,
    ((0xFF <<< 24) ||| (g.val <<< 16) ||| (g.val <<< 8) ||| g.val)
      = 4278190080 + 65793 * g.val := by
  decide

theorem and_ff (n : Nat) : n &&& 0xFF = n % 256 := Nat.and_pow_two_sub_one_eq_mod n 8

theorem grayPixel_eq (p : Nat) :
    Engine.grayPixel p = 4278190080 + 65793 * ((redOf p + greenOf p + blueOf p) / 3) := by
  have hr : redOf p < 256 := Nat.mod_lt _ (by decide)
  have hg : greenOf p < 256 := Nat.mod_lt _ (by decide)
  have hb : blueOf p < 256 := Nat.mod_lt _ (by decide)
  have hlt : (redOf p + greenOf p + blueOf p) / 3 < 256 := by omega
  have h := or_gray ⟨_, hlt⟩
  simp only [Engine.grayPixel, and_ff, Nat.shiftRight_eq_div_pow, Nat.mod_mod]
  simp only [redOf, greenOf, blueOf] at h hlt ⊢
  rw [Nat.mod_eq_of_lt hlt, h]
  omega

theorem grayPixel_lt (p : Nat) : Engine.grayPixel p < 2 ^ 32 := by
  have hr : redOf p < 256 := Nat.mod_lt _ (by decide)
  have hg : greenOf p < 256 := Nat.mod_lt _ (by decide)
  have hb : blueOf p < 256 := Nat.mod_lt _ (by decide)
  rw [grayPixel_eq]; omega

theorem pixelStep_some {line x : Nat} {s s' : Run} (h : Engine.pixelStep line x s = some s') :
    ∃ p, loadWord s.pixels (line + 4 * x) = some p ∧
      storeWord s.pixels (line + 4 * x) (Engine.grayPixel p) = some s'.pixels ∧
      s'.trace = s.trace ++ [Event.load (line + 4 * x), Event.store (line + 4 * x)] := by
  unfold Engine.pixelStep at h
  split at h
  · cases h
  · rename_i p hp
    split at h
    · cases h
    · rename_i m hm
      cases h
      exact ⟨p, hp, hm, rfl⟩

theorem pixelStep_total (line x : Nat) (s : Run) (h : line + 4 * x + 4 ≤ s.pixels.length) :
    ∃ s', Engine.pixelStep line x s = some s' := by
  obtain ⟨p, hp, _⟩ := loadWord_isSome h
  obtain ⟨m, hm⟩ := storeWord_isSome (Engine.grayPixel p) h
  refine ⟨⟨m, s.trace ++ [Event.load (line + 4 * x), Event.store (line + 4 * x)]⟩, ?_⟩
  simp [Engine.pixelStep, hp, hm]

theorem rowLoop_some (line : Nat) : ∀ (n x : Nat) (s s' : Run),
    Engine.rowLoop line x n s = some s' →
      s'.pixels.length = s.pixels.length ∧
      (∀ o, (o < line + 4 * x ∨ line + 4 * (x + n) ≤ o) → s'.pixels[o]? = s.pixels[o]?) ∧
      (∀ j, j < n → ∃ p, loadWord s.pixels (line + 4 * (x + j)) = some p ∧
        loadWord s'.pixels (line + 4 * (x + j)) = some (Engine.grayPixel p)) ∧
      s'.trace = s.trace ++ rowAccesses line x n := by
  intro n
  induction n with
  | zero =>
    intro x s s' h
    cases h
    exact ⟨rfl, fun _ _ => rfl, fun j hj => absurd hj (Nat.not_lt_zero j), by simp [rowAccesses]⟩
  | succ n ih =>
    intro x s s' h
    simp only [Engine.rowLoop, Option.bind_eq_some] at h
    obtain ⟨s1, hstep, hrow⟩ := h
    obtain ⟨p, hload, hstore, htr1⟩ := pixelStep_some hstep
    have hlen1 := storeWord_length hstore
    obtain ⟨hlen', hframe, hpix, htr⟩ := ih (x + 1) s1 s' hrow
    refine ⟨by rw [hlen', hlen1], ?_, ?_, ?_⟩
    · intro o ho
      rw [hframe o (by omega), storeWord_get_outside hstore o (by omega)]
    · intro j hj
      cases j with
      | zero =>
        refine ⟨p, hload, ?_⟩
        have h1 : loadWord s'.pixels (line + 4 * x) = loadWord s1.pixels (line + 4 * x) :=
          loadWord_congr (fun k hk => hframe _ (by omega))
        simp only [Nat.add_zero]
        rw [h1, loadWord_storeWord hstore, Nat.mod_eq_of_lt (grayPixel_lt p)]
      | succ j =>
        have e : line + 4 * (x + (j + 1)) = line + 4 * (x + 1 + j) := by omega
        obtain ⟨q, hq, hq'⟩ := hpix j (by omega)
        refine ⟨q, ?_, by rw [e]; exact hq'⟩
        rw [e, ← hq]
        exact (loadWord_congr (fun k hk => storeWord_get_outside hstore _ (by omega))).symm
    · rw [htr, htr1]
      simp [rowAccesses]

theorem rowLoop_total (line : Nat) : ∀ (n x : Nat) (s : Run),
    line + 4 * (x + n) ≤ s.pixels.length → ∃ s', Engine.rowLoop line x n s = some s' := by
  intro n
  induction n with
  | zero => intro x s _; exact ⟨s, rfl⟩
  | succ n ih =>
    intro x s hlen
    obtain ⟨s1, hstep⟩ := pixelStep_total line x s (by omega)
    obtain ⟨p, _, hstore, _⟩ := pixelStep_some hstep
    obtain ⟨s', hrow⟩ := ih (x + 1) s1 (by rw [storeWord_length hstore]; omega)
    exact ⟨s', by simp [Engine.rowLoop, hstep, hrow]⟩

theorem lineLoop_trace (info : AndroidBitmapInfo) : ∀ (n line : Nat) (s s' : Run),
    Engine.lineLoop info line n s = some s' →
      s'.pixels.length = s.pixels.length ∧ s'.trace = s.trace ++ lineAccesses info line n := by
  intro n
  induction n with
  | zero => intro line s s' h; cases h; simp [lineAccesses]
  | succ n ih =>
    intro line s s' h
    simp only [Engine.lineLoop, Option.bind_eq_some] at h
    obtain ⟨s1, hrow, hrest⟩ := h
    obtain ⟨hlen1, _, _, htr1⟩ := rowLoop_some line info.width 0 s s1 hrow
    obtain ⟨hlen', htr⟩ := ih (line + info.stride) s1 s' hrest
    exact ⟨by rw [hlen', hlen1], by rw [htr, htr1]; simp [lineAccesses]⟩

theorem lineLoop_some (info : AndroidBitmapInfo) (hs : 4 * info.width ≤ info.stride) :
    ∀ (n line : Nat) (s s' : Run), Engine.lineLoop info line n s = some s' →
      (∀ o, (∀ i, i < n → ¬ (line + i * info.stride ≤ o ∧ o < line + i * info.stride + 4 * info.width)) →
        s'.pixels[o]? = s.pixels[o]?) ∧
      (∀ i j, i < n → j < info.width →
        ∃ p, loadWord s.pixels (line + i * info.stride + 4 * j) = some p ∧
          loadWord s'.pixels (line + i * info.stride + 4 * j) = some (Engine.grayPixel p)) := by
  intro n
  induction n with
  | zero =>
    intro line s s' h
    cases h
    exact ⟨fun _ _ => rfl, fun i j hi _ => absurd hi (Nat.not_lt_zero i)⟩
  | succ n ih =>
    intro line s s' h
    simp only [Engine.lineLoop, Option.bind_eq_some] at h
    obtain ⟨s1, hrow, hrest⟩ := h
    obtain ⟨hlen1, hframe1, hpix1, htr1⟩ := rowLoop_some line info.width 0 s s1 hrow
    obtain ⟨hframe, hpix⟩ := ih (line + info.stride) s1 s' hrest
    refine ⟨?_, ?_⟩
    · intro o ho
      have hrow0 := ho 0 (by omega)
      rw [hframe o ?_, hframe1 o (by omega)]
      intro i hi
      have := ho (i + 1) (by omega)
      have e : (i + 1) * info.stride = i * info.stride + info.stride := Nat.succ_mul i info.stride
      omega
    · intro i j hi hj
      cases i with
      | zero =>
        obtain ⟨p, hp, hp'⟩ := hpix1 j hj
        simp only [Nat.zero_add, Nat.zero_mul, Nat.add_zero] at hp hp' ⊢
        refine ⟨p, hp, ?_⟩
        rw [← hp']
        apply loadWord_congr
        intro k hk
        apply hframe
        intro i _
        omega
      | succ i =>
        have e : (i + 1) * info.stride = i * info.stride + info.stride := Nat.succ_mul i info.stride
        have e2 : line + (i + 1) * info.stride + 4 * j = line + info.stride + i * info.stride + 4 * j := by omega
        obtain ⟨q, hq, hq'⟩ := hpix i j (by omega) hj
        refine ⟨q, ?_, by rw [e2]; exact hq'⟩
        rw [e2, ← hq]
        exact (loadWord_congr (fun k hk => hframe1 _ (by omega))).symm

theorem lineLoop_total (info : AndroidBitmapInfo) (hs : 4 * info.width ≤ info.stride) :
    ∀ (n line : Nat) (s : Run), line + n * info.stride ≤ s.pixels.length →
      ∃ s', Engine.lineLoop info line n s = some s' := by
  intro n
  induction n with
  | zero => intro line s _; exact ⟨s, rfl⟩
  | succ n ih =>
    intro line s hlen
    have hmul : (n + 1) * info.stride = n * info.stride + info.stride := Nat.succ_mul n info.stride
    obtain ⟨s1, hrow⟩ := rowLoop_total line info.width 0 s (by omega)
    obtain ⟨hlen1, _⟩ := rowLoop_some line info.width 0 s s1 hrow
    obtain ⟨s', hrest⟩ := ih (line + info.stride) s1 (by rw [hlen1]; omega)
    exact ⟨s', by simp [Engine.lineLoop, hrow, hrest]⟩

/-! ## ndk.cpp repeats engine.cpp -/

theorem ndk_rowLoop_eq (line : Nat) : ∀ (n x : Nat) (s : Run),
    Ndk.rowLoop line x n s = Engine.rowLoop line x n s := by
  intro n
  induction n with
  | zero => intro x s; rfl
  | succ n ih =>
    intro x s
    show (Engine.pixelStep line x s).bind (Ndk.rowLoop line (x + 1) n) = _
    rw [funext (ih (x + 1))]
    rfl

theorem ndk_lineLoop_eq (info : AndroidBitmapInfo) : ∀ (n line : Nat) (s : Run),
    Ndk.lineLoop info line n s = Engine.lineLoop info line n s := by
  intro n
  induction n with
  | zero => intro line s; rfl
  | succ n ih =>
    intro line s
    show (Ndk.rowLoop line 0 info.width s).bind (Ndk.lineLoop info (line + info.stride) n) = _
    rw [funext (ih (line + info.stride)), ndk_rowLoop_eq]
    rfl

/-! ## Traces -/

theorem mem_rowAccesses (line : Nat) (e : Event) : ∀ (n x : Nat), e ∈ rowAccesses line x n →
    ∃ j, j < n ∧ (e = Event.load (line + 4 * (x + j)) ∨ e = Event.store (line + 4 * (x + j))) := by
  intro n
  induction n with
  | zero => intro x h; simp [rowAccesses] at h
  | succ n ih =>
    intro x h
    simp only [rowAccesses, List.mem_cons] at h
    rcases h with h | h | h
    · exact ⟨0, by omega, Or.inl h⟩
    · exact ⟨0, by omega, Or.inr h⟩
    · obtain ⟨j, hj, hc⟩ := ih (x + 1) h
      have e1 : line + 4 * (x + 1 + j) = line + 4 * (x + (j + 1)) := by omega
      rw [e1] at hc
      exact ⟨j + 1, by omega, hc⟩

theorem mem_lineAccesses (info : AndroidBitmapInfo) (e : Event) : ∀ (n line : Nat),
    e ∈ lineAccesses info line n →
    ∃ i j, i < n ∧ j < info.width ∧
      (e = Event.load (line + i * info.stride + 4 * j) ∨
        e = Event.store (line + i * info.stride + 4 * j)) := by
  intro n
  induction n with
  | zero => intro line h; simp [lineAccesses] at h
  | succ n ih =>
    intro line h
    simp only [lineAccesses, List.mem_append] at h
    rcases h with h | h
    · obtain ⟨j, hj, hc⟩ := mem_rowAccesses line e info.width 0 h
      refine ⟨0, j, by omega, hj, ?_⟩
      simpa using hc
    · obtain ⟨i, j, hi, hj, hc⟩ := ih (line + info.stride) h
      have e1 : line + info.stride + i * info.stride + 4 * j
          = line + (i + 1) * info.stride + 4 * j := by
        have e : (i + 1) * info.stride = i * info.stride + info.stride :=
          Nat.succ_mul i info.stride
        omega
      rw [e1] at hc
      exact ⟨i + 1, j, by omega, hj, hc⟩

/-! ## Success of a run depends only on the size of the region -/

theorem rowLoop_some_of_length (line : Nat) : ∀ (n x : Nat) (s s' t : Run),
    Engine.rowLoop line x n s = some s' → t.pixels.length = s.pixels.length →
    ∃ t', Engine.rowLoop line x n t = some t' := by
  intro n
  induction n with
  | zero => intro x s s' t _ _; exact ⟨t, rfl⟩
  | succ n ih =>
    intro x s s' t h ht
    simp only [Engine.rowLoop, Option.bind_eq_some] at h
    obtain ⟨s1, hstep, hrow⟩ := h
    obtain ⟨p, _, hstore, _⟩ := pixelStep_some hstep
    have hb := storeWord_inRange hstore
    obtain ⟨t1, htstep⟩ := pixelStep_total line x t (by omega)
    obtain ⟨q, _, htstore, _⟩ := pixelStep_some htstep
    obtain ⟨t', ht'⟩ := ih (x + 1) s1 s' t1 hrow
      (by rw [storeWord_length htstore, storeWord_length hstore, ht])
    exact ⟨t', by simp [Engine.rowLoop, htstep, ht']⟩

theorem lineLoop_some_of_length (info : AndroidBitmapInfo) : ∀ (n line : Nat) (s s' t : Run),
    Engine.lineLoop info line n s = some s' → t.pixels.length = s.pixels.length →
    ∃ t', Engine.lineLoop info line n t = some t' := by
  intro n
  induction n with
  | zero => intro line s s' t _ _; exact ⟨t, rfl⟩
  | succ n ih =>
    intro line s s' t h ht
    simp only [Engine.lineLoop, Option.bind_eq_some] at h
    obtain ⟨s1, hrow, hrest⟩ := h
    obtain ⟨t1, htrow⟩ := rowLoop_some_of_length line info.width 0 s s1 t hrow ht
    obtain ⟨hl1, _⟩ := rowLoop_some line info.width 0 s s1 hrow
    obtain ⟨hl2, _⟩ := rowLoop_some line info.width 0 t t1 htrow
    obtain ⟨t', ht'⟩ := ih (line + info.stride) s1 s' t1 hrest (by rw [hl2, hl1, ht])
    exact ⟨t', by simp [Engine.lineLoop, htrow, ht']⟩

/-! ## The entry points, path by path -/

theorem engine_getInfo_fails {b : Bitmap} (h : b.getInfoResult < 0) :
    Java_br_com_b256_core_engine_Engine_grayscale b =
      some ⟨b.pixels, [Event.getInfo, Event.log "engine" "Failed to get bitmap info"]⟩ := by
  simp [Java_br_com_b256_core_engine_Engine_grayscale, h, Engine.LOG_TAG]

theorem engine_format_fails {b : Bitmap} (h : 0 ≤ b.getInfoResult)
    (hf : b.info.format ≠ ANDROID_BITMAP_FORMAT_RGBA_8888) :
    Java_br_com_b256_core_engine_Engine_grayscale b =
      some ⟨b.pixels, [Event.getInfo, Event.log "engine" "Unsupported format"]⟩ := by
  simp [Java_br_com_b256_core_engine_Engine_grayscale, Int.not_lt.mpr h, hf, Engine.LOG_TAG]

theorem engine_lock_fails {b : Bitmap} (h : 0 ≤ b.getInfoResult)
    (hf : b.info.format = ANDROID_BITMAP_FORMAT_RGBA_8888) (hl : b.lockPixelsResult < 0) :
    Java_br_com_b256_core_engine_Engine_grayscale b =
      some ⟨b.pixels,
        [Event.getInfo, Event.lockPixels, Event.log "engine" "Failed to lock pixels"]⟩ := by
  simp [Java_br_com_b256_core_engine_Engine_grayscale, Int.not_lt.mpr h, hf, hl, Engine.LOG_TAG]

theorem engine_gates_pass {b : Bitmap} (h : 0 ≤ b.getInfoResult)
    (hf : b.info.format = ANDROID_BITMAP_FORMAT_RGBA_8888) (hl : 0 ≤ b.lockPixelsResult) :
    Java_br_com_b256_core_engine_Engine_grayscale b =
      (Engine.lineLoop b.info 0 b.info.height ⟨b.pixels, [Event.getInfo, Event.lockPixels]⟩).map
        (fun s => ⟨s.pixels, s.trace ++ [Event.unlockPixels]⟩) := by
  simp [Java_br_com_b256_core_engine_Engine_grayscale, Int.not_lt.mpr h, hf, Int.not_lt.mpr hl]

theorem ndk_getInfo_fails {b : Bitmap} (h : b.getInfoResult < 0) :
    Java_br_com_b256_core_ndk_NativeLib_grayscale b =
      some ⟨b.pixels, [Event.getInfo, Event.log "NDK_Camera" "Failed to get bitmap info"]⟩ := by
  simp [Java_br_com_b256_core_ndk_NativeLib_grayscale, h, Ndk.LOG_TAG]

theorem ndk_format_fails {b : Bitmap} (h : 0 ≤ b.getInfoResult)
    (hf : b.info.format ≠ ANDROID_BITMAP_FORMAT_RGBA_8888) :
    Java_br_com_b256_core_ndk_NativeLib_grayscale b =
      some ⟨b.pixels, [Event.getInfo, Event.log "NDK_Camera" "Unsupported format"]⟩ := by
  simp [Java_br_com_b256_core_ndk_NativeLib_grayscale, Int.not_lt.mpr h, hf, Ndk.LOG_TAG]

theorem ndk_lock_fails {b : Bitmap} (h : 0 ≤ b.getInfoResult)
    (hf : b.info.format = ANDROID_BITMAP_FORMAT_RGBA_8888) (hl : b.lockPixelsResult < 0) :
    Java_br_com_b256_core_ndk_NativeLib_grayscale b =
      some ⟨b.pixels,
        [Event.getInfo, Event.lockPixels, Event.log "NDK_Camera" "Failed to lock pixels"]⟩ := by
  simp [Java_br_com_b256_core_ndk_NativeLib_grayscale, Int.not_lt.mpr h, hf, hl, Ndk.LOG_TAG]

theorem ndk_gates_pass {b : Bitmap} (h : 0 ≤ b.getInfoResult)
    (hf : b.info.format = ANDROID_BITMAP_FORMAT_RGBA_8888) (hl : 0 ≤ b.lockPixelsResult) :
    Java_br_com_b256_core_ndk_NativeLib_grayscale b =
      (Engine.lineLoop b.info 0 b.info.height ⟨b.pixels, [Event.getInfo, Event.lockPixels]⟩).map
        (fun s => ⟨s.pixels, s.trace ++ [Event.unlockPixels]⟩) := by
  simp [Java_br_com_b256_core_ndk_NativeLib_grayscale, Int.not_lt.mpr h, hf, Int.not_lt.mpr hl,
    funext (ndk_lineLoop_eq b.info b.info.height 0)]

/-- What a run that passed the three gates leaves behind. -/
theorem transform_some {b : Bitmap} {r : Run}
    (h : (Engine.lineLoop b.info 0 b.info.height ⟨b.pixels, [Event.getInfo, Event.lockPixels]⟩).map
        (fun s => (⟨s.pixels, s.trace ++ [Event.unlockPixels]⟩ : Run)) = some r) :
    r.pixels.length = b.pixels.length ∧
    r.trace = [Event.getInfo, Event.lockPixels] ++ lineAccesses b.info 0 b.info.height
      ++ [Event.unlockPixels] ∧
    (4 * b.info.width ≤ b.info.stride →
      (∀ o, (∀ y, y < b.info.height →
          ¬ (y * b.info.stride ≤ o ∧ o < y * b.info.stride + 4 * b.info.width)) →
        r.pixels[o]? = b.pixels[o]?) ∧
      (∀ x y, x < b.info.width → y < b.info.height →
        ∃ p, loadWord b.pixels (y * b.info.stride + 4 * x) = some p ∧
          loadWord r.pixels (y * b.info.stride + 4 * x) = some (Engine.grayPixel p))) := by
  simp only [Option.map_eq_some'] at h
  obtain ⟨s, hs, rfl⟩ := h
  obtain ⟨hlen, htr⟩ := lineLoop_trace b.info b.info.height 0 _ s hs
  refine ⟨hlen, by rw [htr], ?_⟩
  intro hstride
  obtain ⟨hframe, hpix⟩ := lineLoop_some b.info hstride b.info.height 0 _ s hs
  refine ⟨?_, ?_⟩
  · intro o ho
    apply hframe
    intro i hi
    have := ho i hi
    simpa using this
  · intro x y hx hy
    have := hpix y x hy hx
    simpa using this

theorem transform_total {b : Bitmap} (hs : 4 * b.info.width ≤ b.info.stride)
    (hlen : b.info.height * b.info.stride ≤ b.pixels.length) :
    ∃ r, (Engine.lineLoop b.info 0 b.info.height ⟨b.pixels, [Event.getInfo, Event.lockPixels]⟩).map
        (fun s => (⟨s.pixels, s.trace ++ [Event.unlockPixels]⟩ : Run)) = some r := by
  obtain ⟨s, h⟩ := lineLoop_total b.info hs b.info.height 0
    ⟨b.pixels, [Event.getInfo, Event.lockPixels]⟩ (by simpa using hlen)
  exact ⟨_, by rw [h]; rfl⟩

theorem engine_total {b : Bitmap} (hs : 4 * b.info.width ≤ b.info.stride)
    (hlen : b.info.height * b.info.stride ≤ b.pixels.length) :
    ∃ r, Java_br_com_b256_core_engine_Engine_grayscale b = some r := by
  by_cases h1 : b.getInfoResult < 0
  · exact ⟨_, engine_getInfo_fails h1⟩
  by_cases h2 : b.info.format = ANDROID_BITMAP_FORMAT_RGBA_8888
  · by_cases h3 : b.lockPixelsResult < 0
    · exact ⟨_, engine_lock_fails (Int.not_lt.mp h1) h2 h3⟩
    · rw [engine_gates_pass (Int.not_lt.mp h1) h2 (Int.not_lt.mp h3)]
      exact transform_total hs hlen
  · exact ⟨_, engine_format_fails (Int.not_lt.mp h1) h2⟩

theorem ndk_total {b : Bitmap} (hs : 4 * b.info.width ≤ b.info.stride)
    (hlen : b.info.height * b.info.stride ≤ b.pixels.length) :
    ∃ r, Java_br_com_b256_core_ndk_NativeLib_grayscale b = some r := by
  by_cases h1 : b.getInfoResult < 0
  · exact ⟨_, ndk_getInfo_fails h1⟩
  by_cases h2 : b.info.format = ANDROID_BITMAP_FORMAT_RGBA_8888
  · by_cases h3 : b.lockPixelsResult < 0
    · exact ⟨_, ndk_lock_fails (Int.not_lt.mp h1) h2 h3⟩
    · rw [ndk_gates_pass (Int.not_lt.mp h1) h2 (Int.not_lt.mp h3)]
      exact transform_total hs hlen
  · exact ⟨_, ndk_format_fails (Int.not_lt.mp h1) h2⟩

/-! ## Channels of the written word -/

theorem gray_word_channels (g : Nat) (hlt : g ≤ 255) : redOf (4278190080 + 65793 * g) = g ∧
    greenOf (4278190080 + 65793 * g) = g ∧
    blueOf (4278190080 + 65793 * g) = g ∧
    alphaOf (4278190080 + 65793 * g) = 255 := by
  have e16 : (4278190080 + 65793 * g) / 65536 = 65280 + g :=
    Nat.div_eq_of_lt_le (by omega) (by omega)
  have e8 : (4278190080 + 65793 * g) / 256 = 16711680 + 257 * g :=
    Nat.div_eq_of_lt_le (by omega) (by omega)
  have e24 : (4278190080 + 65793 * g) / 16777216 = 255 :=
    Nat.div_eq_of_lt_le (by omega) (by omega)
  simp only [redOf, greenOf, blueOf, alphaOf, Nat.reducePow, e16, e8, e24]
  clear e16 e8 e24
  refine ⟨?_, ?_, ?_, ?_⟩ <;> first | omega | trivial

theorem grayPixel_channels (p : Nat) :
    redOf (Engine.grayPixel p) = (redOf p + greenOf p + blueOf p) / 3 ∧
    greenOf (Engine.grayPixel p) = (redOf p + greenOf p + blueOf p) / 3 ∧
    blueOf (Engine.grayPixel p) = (redOf p + greenOf p + blueOf p) / 3 ∧
    alphaOf (Engine.grayPixel p) = 255 ∧
    (redOf p + greenOf p + blueOf p) / 3 ≤ 255 := by
  have hr : redOf p < 256 := Nat.mod_lt _ (by decide)
  have hg : greenOf p < 256 := Nat.mod_lt _ (by decide)
  have hb : blueOf p < 256 := Nat.mod_lt _ (by decide)
  have hlt : (redOf p + greenOf p + blueOf p) / 3 ≤ 255 := by omega
  obtain ⟨h1, h2, h3, h4⟩ := gray_word_channels _ hlt
  rw [grayPixel_eq]
  exact ⟨h1, h2, h3, h4, hlt⟩

theorem grayPixel_idem (p : Nat) : Engine.grayPixel (Engine.grayPixel p) = Engine.grayPixel p := by
  obtain ⟨h1, h2, h3, _, _⟩ := grayPixel_channels p
  rw [grayPixel_eq (Engine.grayPixel p), h1, h2, h3, grayPixel_eq p]
  omega

theorem grayPixel_bits (p : Nat) :
    Engine.grayPixel p =
      0xFF000000 ||| ((redOf p + greenOf p + blueOf p) / 3) <<< 16
        ||| ((redOf p + greenOf p + blueOf p) / 3) <<< 8 ||| ((redOf p + greenOf p + blueOf p) / 3) := by
  have hr : redOf p < 256 := Nat.mod_lt _ (by decide)
  have hg : greenOf p < 256 := Nat.mod_lt _ (by decide)
  have hb : blueOf p < 256 := Nat.mod_lt _ (by decide)
  have hlt : (redOf p + greenOf p + blueOf p) / 3 < 256 := by omega
  have h := or_gray ⟨_, hlt⟩
  rw [grayPixel_eq]
  exact h.symm

theorem loadWord_get_byte {mem : List (Fin 256)} {off w : Nat} (h : loadWord mem off = some w)
    (k : Nat) (hk : k < 4) : mem[off + k]? = some (byteOf w k) := by
  have hr := loadWord_inRange h
  have h0 : off < mem.length := by omega
  have h1 : off + 1 < mem.length := by omega
  have h2 : off + 2 < mem.length := by omega
  have h3 : off + 3 < mem.length := by omega
  rw [loadWord_of_bytes (List.getElem?_eq_getElem h0) (List.getElem?_eq_getElem h1)
    (List.getElem?_eq_getElem h2) (List.getElem?_eq_getElem h3)] at h
  have hw := Option.some.inj h
  have := (mem[off]).isLt
  have := (mem[off + 1]).isLt
  have := (mem[off + 2]).isLt
  have := (mem[off + 3]).isLt
  have hcases : k = 0 ∨ k = 1 ∨ k = 2 ∨ k = 3 := by omega
  rcases hcases with rfl | rfl | rfl | rfl
  · rw [List.getElem?_eq_getElem (by omega)]
    congr 1
    apply Fin.ext
    simp only [byteOf, Nat.add_zero, Nat.pow_zero, Nat.div_one]
    omega
  · rw [List.getElem?_eq_getElem h1]
    congr 1
    apply Fin.ext
    simp only [byteOf]
    omega
  · rw [List.getElem?_eq_getElem h2]
    congr 1
    apply Fin.ext
    simp only [byteOf]
    omega
  · rw [List.getElem?_eq_getElem h3]
    congr 1
    apply Fin.ext
    simp only [byteOf]
    omega

/-! ## A second pass over disjoint rows changes nothing -/

theorem transform_idem {b : Bitmap} {r1 : Run} (hs : 4 * b.info.width ≤ b.info.stride)
    (h1 : (Engine.lineLoop b.info 0 b.info.height ⟨b.pixels, [Event.getInfo, Event.lockPixels]⟩).map
        (fun s => (⟨s.pixels, s.trace ++ [Event.unlockPixels]⟩ : Run)) = some r1) :
    ∃ r2, (Engine.lineLoop b.info 0 b.info.height
        ⟨r1.pixels, [Event.getInfo, Event.lockPixels]⟩).map
        (fun s => (⟨s.pixels, s.trace ++ [Event.unlockPixels]⟩ : Run)) = some r2 ∧
      r2.pixels = r1.pixels := by
  obtain ⟨hlen1, _, hrest1⟩ := transform_some h1
  obtain ⟨_, hpix1⟩ := hrest1 hs
  have h1' := h1
  simp only [Option.map_eq_some'] at h1'
  obtain ⟨s1, hs1, hr1⟩ := h1'
  obtain ⟨t', ht'⟩ := lineLoop_some_of_length b.info b.info.height 0 _ s1
    ⟨r1.pixels, [Event.getInfo, Event.lockPixels]⟩ hs1 hlen1
  have h2 : (Engine.lineLoop (Bitmap.mk b.info b.getInfoResult b.lockPixelsResult r1.pixels).info 0
      (Bitmap.mk b.info b.getInfoResult b.lockPixelsResult r1.pixels).info.height
      ⟨(Bitmap.mk b.info b.getInfoResult b.lockPixelsResult r1.pixels).pixels,
        [Event.getInfo, Event.lockPixels]⟩).map
      (fun s => (⟨s.pixels, s.trace ++ [Event.unlockPixels]⟩ : Run))
      = some ⟨t'.pixels, t'.trace ++ [Event.unlockPixels]⟩ := by
    show (Engine.lineLoop b.info 0 b.info.height ⟨r1.pixels, _⟩).map _ = _
    rw [ht']; rfl
  obtain ⟨_, _, hrest2⟩ := transform_some h2
  obtain ⟨hframe2, hpix2⟩ := hrest2 hs
  refine ⟨⟨t'.pixels, t'.trace ++ [Event.unlockPixels]⟩, by rw [ht']; rfl, ?_⟩
  apply List.ext_getElem?
  intro o
  by_cases hin : ∃ y, y < b.info.height ∧ y * b.info.stride ≤ o ∧
      o < y * b.info.stride + 4 * b.info.width
  · obtain ⟨y, hy, hlo, hhi⟩ := hin
    obtain ⟨x, k, hx, hk, rfl⟩ : ∃ x k, x < b.info.width ∧ k < 4 ∧
        o = y * b.info.stride + 4 * x + k :=
      ⟨(o - y * b.info.stride) / 4, (o - y * b.info.stride) % 4, by omega, by omega, by omega⟩
    obtain ⟨p, _, hq1⟩ := hpix1 x y hx hy
    obtain ⟨p', hq2, hq2'⟩ := hpix2 x y hx hy
    have hpp : p' = Engine.grayPixel p := Option.some.inj (hq2.symm.trans hq1)
    rw [hpp, grayPixel_idem] at hq2'
    exact (loadWord_get_byte hq2' k hk).trans (loadWord_get_byte hq1 k hk).symm
  · apply hframe2
    intro y hy hc
    exact hin ⟨y, hy, hc.1, hc.2⟩

/-! ## Order of the platform calls -/

theorem lineAccesses_kind (info : AndroidBitmapInfo) (line n : Nat) :
    ∀ e ∈ lineAccesses info line n, ∃ off, e = Event.load off ∨ e = Event.store off := by
  intro e he
  obtain ⟨i, j, _, _, hc⟩ := mem_lineAccesses info e n line he
  exact ⟨_, hc⟩

/-- The shape of the trace of a returning call, from the path it took. -/
theorem trace_shape (tag : String) {b : Bitmap} {r : Run}
    (h1 : b.getInfoResult < 0 →
      r = ⟨b.pixels, [Event.getInfo, Event.log tag "Failed to get bitmap info"]⟩)
    (h2 : 0 ≤ b.getInfoResult → b.info.format ≠ ANDROID_BITMAP_FORMAT_RGBA_8888 →
      r = ⟨b.pixels, [Event.getInfo, Event.log tag "Unsupported format"]⟩)
    (h3 : 0 ≤ b.getInfoResult → b.info.format = ANDROID_BITMAP_FORMAT_RGBA_8888 →
      b.lockPixelsResult < 0 →
      r = ⟨b.pixels, [Event.getInfo, Event.lockPixels, Event.log tag "Failed to lock pixels"]⟩)
    (h4 : 0 ≤ b.getInfoResult → b.info.format = ANDROID_BITMAP_FORMAT_RGBA_8888 →
      0 ≤ b.lockPixelsResult →
      (Engine.lineLoop b.info 0 b.info.height ⟨b.pixels, [Event.getInfo, Event.lockPixels]⟩).map
        (fun s => (⟨s.pixels, s.trace ++ [Event.unlockPixels]⟩ : Run)) = some r) :
    ((0 ≤ b.getInfoResult ∧ b.info.format = ANDROID_BITMAP_FORMAT_RGBA_8888 ∧
        0 ≤ b.lockPixelsResult) →
      (∃ acc, r.trace = [Event.getInfo, Event.lockPixels] ++ acc ++ [Event.unlockPixels] ∧
        ∀ e ∈ acc, ∃ off, e = Event.load off ∨ e = Event.store off) ∧
      r.trace.count Event.unlockPixels = 1) ∧
    (¬ (0 ≤ b.getInfoResult ∧ b.info.format = ANDROID_BITMAP_FORMAT_RGBA_8888 ∧
        0 ≤ b.lockPixelsResult) →
      Event.unlockPixels ∉ r.trace ∧
      (∀ off, Event.load off ∉ r.trace ∧ Event.store off ∉ r.trace) ∧
      r.pixels = b.pixels) ∧
    (Event.lockPixels ∈ r.trace →
      0 ≤ b.getInfoResult ∧ b.info.format = ANDROID_BITMAP_FORMAT_RGBA_8888) := by
  by_cases hgi : b.getInfoResult < 0
  · have hr := h1 hgi
    subst hr
    refine ⟨fun hg => absurd hg.1 (Int.not_le.mpr hgi), fun _ => ⟨by simp, by simp, rfl⟩, ?_⟩
    intro h; simp at h
  have hgi' := Int.not_lt.mp hgi
  by_cases hf : b.info.format = ANDROID_BITMAP_FORMAT_RGBA_8888
  · by_cases hl : b.lockPixelsResult < 0
    · have hr := h3 hgi' hf hl
      subst hr
      exact ⟨fun hg => absurd hg.2.2 (Int.not_le.mpr hl), fun _ => ⟨by simp, by simp, rfl⟩,
        fun _ => ⟨hgi', hf⟩⟩
    · have hl' := Int.not_lt.mp hl
      obtain ⟨_, htr, _⟩ := transform_some (h4 hgi' hf hl')
      have hk := lineAccesses_kind b.info 0 b.info.height
      refine ⟨fun _ => ⟨⟨_, htr, hk⟩, ?_⟩, fun hn => absurd ⟨hgi', hf, hl'⟩ hn, fun _ => ⟨hgi', hf⟩⟩
      rw [htr]
      have h0 : (lineAccesses b.info 0 b.info.height).count Event.unlockPixels = 0 := by
        rw [List.count_eq_zero]
        intro hm
        obtain ⟨off, hc⟩ := hk _ hm
        rcases hc with hc | hc <;> cases hc
      simp [List.count_append, h0, List.count_cons]
  · have hr := h2 hgi' hf
    subst hr
    refine ⟨fun hg => absurd hg.2.1 hf, fun _ => ⟨by simp, by simp, rfl⟩, ?_⟩
    intro h; simp at h

/-! ## C1: the gray value -/

/-- C1. For every RGBA8888 buffer with width > 0, height > 0 and stride >= 4*width
whose getInfo and lockPixels calls succeed: the call returns when the locked
region holds the height*stride bytes of the image, and whenever it returns, for
every (x, y) in range the word at byte offset y*stride + 4*x has its three colour
bytes equal to floor((r + g + b) / 3), for the r, g, b (bits 16-23, 8-15, 0-7) of
the ORIGINAL word at that offset; that value is at most 255, the sum being taken
without reduction modulo 256.  The 2x2 scenario of the specification evaluates to
the four expected words. -/
theorem C1_gray_is_floor_average_of_original :
    (∀ b : Bitmap, b.info.format = ANDROID_BITMAP_FORMAT_RGBA_8888 →
      0 ≤ b.getInfoResult → 0 ≤ b.lockPixelsResult →
      0 < b.info.width → 0 < b.info.height → 4 * b.info.width ≤ b.info.stride →
      (b.info.height * b.info.stride ≤ b.pixels.length →
        ∃ r, Java_br_com_b256_core_engine_Engine_grayscale b = some r) ∧
      ∀ r, Java_br_com_b256_core_engine_Engine_grayscale b = some r →
        ∀ x y, x < b.info.width → y < b.info.height →
          ∃ p q, loadWord b.pixels (y * b.info.stride + 4 * x) = some p ∧
            loadWord r.pixels (y * b.info.stride + 4 * x) = some q ∧
            redOf q = (redOf p + greenOf p + blueOf p) / 3 ∧
            greenOf q = (redOf p + greenOf p + blueOf p) / 3 ∧
            blueOf q = (redOf p + greenOf p + blueOf p) / 3 ∧
            (redOf p + greenOf p + blueOf p) / 3 ≤ 255) ∧
    (Java_br_com_b256_core_engine_Engine_grayscale scenario2x2).map Run.pixels =
      some (bytesOfWords [0xFF606060, 0xFF000000, 0xFFFFFFFF, 0xFF202020]) := by
  refine ⟨?_, by decide⟩
  intro b hf hgi hl _ _ hs
  refine ⟨engine_total hs, ?_⟩
  intro r hr x y hx hy
  rw [engine_gates_pass hgi hf hl] at hr
  obtain ⟨p, hp, hq⟩ := ((transform_some hr).2.2 hs).2 x y hx hy
  obtain ⟨h1, h2, h3, _, h5⟩ := grayPixel_channels p
  exact ⟨p, _, hp, hq, h1, h2, h3, h5⟩

/-- Witness of C1: the 2x2 scenario meets every hypothesis and returns
`scenario2x2Result`, so each of its four pixels ends as the floor average of its
original colour bytes. -/
theorem C1_gray_is_floor_average_of_original_witness :
    (scenario2x2.info.format = ANDROID_BITMAP_FORMAT_RGBA_8888 ∧
      0 ≤ scenario2x2.getInfoResult ∧ 0 ≤ scenario2x2.lockPixelsResult ∧
      0 < scenario2x2.info.width ∧ 0 < scenario2x2.info.height ∧
      4 * scenario2x2.info.width ≤ scenario2x2.info.stride) ∧
    Java_br_com_b256_core_engine_Engine_grayscale scenario2x2 = some scenario2x2Result ∧
    ∀ x y, x < scenario2x2.info.width → y < scenario2x2.info.height →
      ∃ p q, loadWord scenario2x2.pixels (y * scenario2x2.info.stride + 4 * x) = some p ∧
        loadWord scenario2x2Result.pixels (y * scenario2x2.info.stride + 4 * x) = some q ∧
        redOf q = (redOf p + greenOf p + blueOf p) / 3 ∧
        greenOf q = (redOf p + greenOf p + blueOf p) / 3 ∧
        blueOf q = (redOf p + greenOf p + blueOf p) / 3 ∧
        (redOf p + greenOf p + blueOf p) / 3 ≤ 255 :=
  ⟨by decide, by decide,
   (C1_gray_is_floor_average_of_original.1 scenario2x2 (by decide) (by decide) (by decide)
     (by decide) (by decide) (by decide)).2 scenario2x2Result (by decide)⟩

/-! ## C2: every pixel ends as a solid gray -/

/-- Counterexample to C2 as stated.  (a) The buffer `lockFails1x1` passes the
format check, but lockPixels fails: the call returns with the buffer untouched,
and its only pixel `0x80102030` has alpha 0x80 and three different colour bytes.
(b) The buffer `overlap1x2` passes the format check and is locked, but its stride
is smaller than a row: pixel (0, 0) ends as `0x55555500`, whose alpha is 0x55. -/
theorem C2_counterexample :
    (lockFails1x1.info.format = ANDROID_BITMAP_FORMAT_RGBA_8888 ∧
      0 ≤ lockFails1x1.getInfoResult ∧
      Java_br_com_b256_core_engine_Engine_grayscale lockFails1x1 =
        some ⟨lockFails1x1.pixels,
          [Event.getInfo, Event.lockPixels, Event.log "engine" "Failed to lock pixels"]⟩ ∧
      loadWord lockFails1x1.pixels (0 * lockFails1x1.info.stride + 4 * 0) = some 0x80102030 ∧
      alphaOf 0x80102030 = 0x80 ∧ redOf 0x80102030 = 0x10 ∧ greenOf 0x80102030 = 0x20 ∧
      blueOf 0x80102030 = 0x30 ∧
      alphaOf 0x80102030 ≠ 255 ∧ redOf 0x80102030 ≠ greenOf 0x80102030) ∧
    (overlap1x2.info.format = ANDROID_BITMAP_FORMAT_RGBA_8888 ∧
      0 ≤ overlap1x2.getInfoResult ∧ 0 ≤ overlap1x2.lockPixelsResult ∧
      (Java_br_com_b256_core_engine_Engine_grayscale overlap1x2).map Run.pixels =
        some [0, 85, 85, 85, 255] ∧
      loadWord [0, 85, 85, 85, 255] (0 * overlap1x2.info.stride + 4 * 0) = some 0x55555500 ∧
      alphaOf 0x55555500 = 0x55 ∧ blueOf 0x55555500 = 0 ∧ redOf 0x55555500 = 0x55 ∧
      alphaOf 0x55555500 ≠ 255 ∧ redOf 0x55555500 ≠ blueOf 0x55555500) := by
  decide

/-- C2, amended.  For every buffer that passes the format check, whose lockPixels
call succeeds and whose stride is at least 4*width: the call returns when the
locked region holds height*stride bytes, and whenever it returns every pixel
(x, y) in range is `0xFF000000 | gray<<16 | gray<<8 | gray` for some gray in
[0, 255], so R == G == B and A == 255, whatever the original alpha was. -/
theorem C2_every_pixel_solid_gray (b : Bitmap)
    (hf : b.info.format = ANDROID_BITMAP_FORMAT_RGBA_8888)
    (hgi : 0 ≤ b.getInfoResult) (hl : 0 ≤ b.lockPixelsResult)
    (hs : 4 * b.info.width ≤ b.info.stride) :
    (b.info.height * b.info.stride ≤ b.pixels.length →
      ∃ r, Java_br_com_b256_core_engine_Engine_grayscale b = some r) ∧
    ∀ r, Java_br_com_b256_core_engine_Engine_grayscale b = some r →
      ∀ x y, x < b.info.width → y < b.info.height →
        ∃ q gray, loadWord r.pixels (y * b.info.stride + 4 * x) = some q ∧
          gray ≤ 255 ∧
          q = 0xFF000000 ||| gray <<< 16 ||| gray <<< 8 ||| gray ∧
          redOf q = gray ∧ greenOf q = gray ∧ blueOf q = gray ∧ alphaOf q = 255 := by
  refine ⟨engine_total hs, ?_⟩
  intro r hr x y hx hy
  rw [engine_gates_pass hgi hf hl] at hr
  obtain ⟨p, _, hq⟩ := ((transform_some hr).2.2 hs).2 x y hx hy
  obtain ⟨h1, h2, h3, h4, h5⟩ := grayPixel_channels p
  exact ⟨_, _, hq, h5, grayPixel_bits p, h1, h2, h3, h4⟩

/-- Witness of C2 (amended): `translucent1x1`, a locked 1x1 buffer whose pixel
has alpha 0x80, returns `translucent1x1Result`. -/
theorem C2_every_pixel_solid_gray_witness :
    (translucent1x1.info.format = ANDROID_BITMAP_FORMAT_RGBA_8888 ∧
      0 ≤ translucent1x1.getInfoResult ∧ 0 ≤ translucent1x1.lockPixelsResult ∧
      4 * translucent1x1.info.width ≤ translucent1x1.info.stride) ∧
    Java_br_com_b256_core_engine_Engine_grayscale translucent1x1 = some translucent1x1Result ∧
    ∀ x y, x < translucent1x1.info.width → y < translucent1x1.info.height →
      ∃ q gray,
        loadWord translucent1x1Result.pixels (y * translucent1x1.info.stride + 4 * x) = some q ∧
        gray ≤ 255 ∧
        q = 0xFF000000 ||| gray <<< 16 ||| gray <<< 8 ||| gray ∧
        redOf q = gray ∧ greenOf q = gray ∧ blueOf q = gray ∧ alphaOf q = 255 :=
  ⟨by decide, by decide,
   (C2_every_pixel_solid_gray translucent1x1 (by decide) (by decide) (by decide)
     (by decide)).2 translucent1x1Result (by decide)⟩

/-! ## C3: idempotence -/

/-- C3. grayscale is idempotent.  For every buffer of the data model (stride at
least 4*width, the invariant of PixelBuffer) and for every outcome of getInfo and
lockPixels (the same on both calls): whenever a call returns, a second call on
the resulting contents returns too and leaves them byte-for-byte as the first
call left them; and a first call does return when the region holds
height*stride bytes. -/
theorem C3_idempotent_when_rows_disjoint (b : Bitmap)
    (hs : 4 * b.info.width ≤ b.info.stride) :
    (b.info.height * b.info.stride ≤ b.pixels.length →
      ∃ r1, Java_br_com_b256_core_engine_Engine_grayscale b = some r1) ∧
    ∀ r1, Java_br_com_b256_core_engine_Engine_grayscale b = some r1 →
      ∃ r2, Java_br_com_b256_core_engine_Engine_grayscale { b with pixels := r1.pixels } = some r2 ∧
        r2.pixels = r1.pixels := by
  refine ⟨engine_total hs, ?_⟩
  intro r1 h1
  by_cases hgi : b.getInfoResult < 0
  · rw [engine_getInfo_fails hgi] at h1
    cases h1
    exact ⟨_, engine_getInfo_fails hgi, rfl⟩
  by_cases hf : b.info.format = ANDROID_BITMAP_FORMAT_RGBA_8888
  · by_cases hl : b.lockPixelsResult < 0
    · rw [engine_lock_fails (Int.not_lt.mp hgi) hf hl] at h1
      cases h1
      exact ⟨_, engine_lock_fails (b := { b with pixels := b.pixels }) (Int.not_lt.mp hgi) hf hl, rfl⟩
    · rw [engine_gates_pass (Int.not_lt.mp hgi) hf (Int.not_lt.mp hl)] at h1
      obtain ⟨r2, h2, he⟩ := transform_idem hs h1
      refine ⟨r2, ?_, he⟩
      rw [engine_gates_pass (b := { b with pixels := r1.pixels }) (Int.not_lt.mp hgi) hf
        (Int.not_lt.mp hl)]
      exact h2
  · rw [engine_format_fails (Int.not_lt.mp hgi) hf] at h1
    cases h1
    exact ⟨_, engine_format_fails (b := { b with pixels := b.pixels }) (Int.not_lt.mp hgi) hf, rfl⟩

/-- Witness of C3: the 2x2 scenario, whose first call returns the four
gray words; a second call leaves them as they are. -/
theorem C3_idempotent_when_rows_disjoint_witness :
    4 * scenario2x2.info.width ≤ scenario2x2.info.stride ∧
    Java_br_com_b256_core_engine_Engine_grayscale scenario2x2 = some scenario2x2Result ∧
    ∃ r2, Java_br_com_b256_core_engine_Engine_grayscale
        { scenario2x2 with pixels := scenario2x2Result.pixels } = some r2 ∧
      r2.pixels = scenario2x2Result.pixels :=
  ⟨by decide, by decide,
   (C3_idempotent_when_rows_disjoint scenario2x2 (by decide)).2 scenario2x2Result (by decide)⟩

/-! ## C4: row padding -/

/-- C4. For every RGBA8888 buffer with stride > 4*width, whatever getInfo and
lockPixels return: the call returns when the region holds height*stride bytes,
and whenever it returns every padding byte is as it was: the byte at
y*stride + k, for y < height and 4*width <= k < stride, is unchanged.  Every
store is a word at y*stride + 4*x with y < height and x < width: rows start at
y*stride and only their first 4*width bytes are written. -/
theorem C4_padding_bytes_unchanged (b : Bitmap)
    (hf : b.info.format = ANDROID_BITMAP_FORMAT_RGBA_8888)
    (hs : 4 * b.info.width < b.info.stride) :
    (b.info.height * b.info.stride ≤ b.pixels.length →
      ∃ r, Java_br_com_b256_core_engine_Engine_grayscale b = some r) ∧
    ∀ r, Java_br_com_b256_core_engine_Engine_grayscale b = some r →
      (∀ y k, y < b.info.height → 4 * b.info.width ≤ k → k < b.info.stride →
        r.pixels[y * b.info.stride + k]? = b.pixels[y * b.info.stride + k]?) ∧
      (∀ off, Event.store off ∈ r.trace →
        ∃ y x, y < b.info.height ∧ x < b.info.width ∧ off = y * b.info.stride + 4 * x) := by
  refine ⟨engine_total (Nat.le_of_lt hs), ?_⟩
  intro r hr
  by_cases hgi : b.getInfoResult < 0
  · rw [engine_getInfo_fails hgi] at hr
    cases hr
    refine ⟨fun _ _ _ _ _ => rfl, ?_⟩
    intro off h
    simp at h
  by_cases hl : b.lockPixelsResult < 0
  · rw [engine_lock_fails (Int.not_lt.mp hgi) hf hl] at hr
    cases hr
    refine ⟨fun _ _ _ _ _ => rfl, ?_⟩
    intro off h
    simp at h
  rw [engine_gates_pass (Int.not_lt.mp hgi) hf (Int.not_lt.mp hl)] at hr
  obtain ⟨_, htr, hrest⟩ := transform_some hr
  obtain ⟨hframe, _⟩ := hrest (Nat.le_of_lt hs)
  refine ⟨?_, ?_⟩
  · intro y k hy hk1 hk2
    apply hframe
    intro y' hy' hc
    rcases Nat.lt_trichotomy y' y with hlt | heq | hgt
    · have : (y' + 1) * b.info.stride ≤ y * b.info.stride :=
        Nat.mul_le_mul_right b.info.stride hlt
      have e : (y' + 1) * b.info.stride = y' * b.info.stride + b.info.stride :=
        Nat.succ_mul y' b.info.stride
      omega
    · subst heq; omega
    · have : (y + 1) * b.info.stride ≤ y' * b.info.stride :=
        Nat.mul_le_mul_right b.info.stride hgt
      have e : (y + 1) * b.info.stride = y * b.info.stride + b.info.stride :=
        Nat.succ_mul y b.info.stride
      omega
  · intro off h
    rw [htr] at h
    simp only [List.mem_append, List.mem_cons, List.mem_singleton, List.not_mem_nil,
      or_false, false_or, reduceCtorEq] at h
    obtain ⟨i, j, hi, hj, hc⟩ := mem_lineAccesses b.info _ _ _ h
    rcases hc with hc | hc
    · cases hc
    · refine ⟨i, j, hi, hj, ?_⟩
      have := Event.store.inj hc
      omega

/-- Witness of C4: `padded2x2`, two rows of two pixels and four padding bytes,
returns `padded2x2Result`, in which the padding words `0xDDCCBBAA` and
`0x44332211` are as they were. -/
theorem C4_padding_bytes_unchanged_witness :
    (padded2x2.info.format = ANDROID_BITMAP_FORMAT_RGBA_8888 ∧
      4 * padded2x2.info.width < padded2x2.info.stride) ∧
    Java_br_com_b256_core_engine_Engine_grayscale padded2x2 = some padded2x2Result ∧
    (∀ y k, y < padded2x2.info.height → 4 * padded2x2.info.width ≤ k →
      k < padded2x2.info.stride →
      padded2x2Result.pixels[y * padded2x2.info.stride + k]?
        = padded2x2.pixels[y * padded2x2.info.stride + k]?) ∧
    (∀ off, Event.store off ∈ padded2x2Result.trace →
      ∃ y x, y < padded2x2.info.height ∧ x < padded2x2.info.width ∧
        off = y * padded2x2.info.stride + 4 * x) :=
  ⟨by decide, by decide,
   (C4_padding_bytes_unchanged padded2x2 (by decide) (by decide)).2 padded2x2Result
     (by decide)⟩

/-! ## C5: rejection of other formats -/

/-- C5. For every buffer whose reported format is not RGBA_8888, the call returns
with the buffer byte-for-byte unchanged; its whole trace is the getInfo call
followed by the one log line "Unsupported format", so lockPixels is never
attempted and no other diagnostic is emitted. -/
theorem C5_unsupported_format_rejected (b : Bitmap) (hgi : 0 ≤ b.getInfoResult)
    (hf : b.info.format ≠ ANDROID_BITMAP_FORMAT_RGBA_8888) :
    ∃ r, Java_br_com_b256_core_engine_Engine_grayscale b = some r ∧
      r.pixels = b.pixels ∧
      r.trace = [Event.getInfo, Event.log "engine" "Unsupported format"] ∧
      Event.lockPixels ∉ r.trace :=
  ⟨_, engine_format_fails hgi hf, rfl, rfl, by simp⟩

/-- Witness of C5: the 1x1 `RGB_565` buffer of the specification's scenario. -/
theorem C5_unsupported_format_rejected_witness :
    (0 ≤ rgb565_1x1.getInfoResult ∧
      rgb565_1x1.info.format ≠ ANDROID_BITMAP_FORMAT_RGBA_8888) ∧
    ∃ r, Java_br_com_b256_core_engine_Engine_grayscale rgb565_1x1 = some r ∧
      r.pixels = rgb565_1x1.pixels ∧
      r.trace = [Event.getInfo, Event.log "engine" "Unsupported format"] ∧
      Event.lockPixels ∉ r.trace :=
  ⟨by decide, C5_unsupported_format_rejected rgb565_1x1 (by decide) (by decide)⟩

/-! ## C6: failed acquisition -/

/-- C6. For every RGBA8888 buffer whose lockPixels call fails, both entry points
return with the buffer untouched; the trace is the getInfo call, the lockPixels
attempt and the one log line "Failed to lock pixels" (the diagnostic of a failed
acquisition) under the entry point's tag. -/
theorem C6_lock_failure_aborts (b : Bitmap) (hgi : 0 ≤ b.getInfoResult)
    (hf : b.info.format = ANDROID_BITMAP_FORMAT_RGBA_8888) (hl : b.lockPixelsResult < 0) :
    (∃ r, Java_br_com_b256_core_engine_Engine_grayscale b = some r ∧ r.pixels = b.pixels ∧
      r.trace = [Event.getInfo, Event.lockPixels, Event.log "engine" "Failed to lock pixels"]) ∧
    (∃ r, Java_br_com_b256_core_ndk_NativeLib_grayscale b = some r ∧ r.pixels = b.pixels ∧
      r.trace =
        [Event.getInfo, Event.lockPixels, Event.log "NDK_Camera" "Failed to lock pixels"]) :=
  ⟨⟨_, engine_lock_fails hgi hf hl, rfl, rfl⟩, ⟨_, ndk_lock_fails hgi hf hl, rfl, rfl⟩⟩

/-- Witness of C6: the 2x2 scenario with a failing lockPixels. -/
theorem C6_lock_failure_aborts_witness :
    (0 ≤ lockFails2x2.getInfoResult ∧
      lockFails2x2.info.format = ANDROID_BITMAP_FORMAT_RGBA_8888 ∧
      lockFails2x2.lockPixelsResult < 0) ∧
    (∃ r, Java_br_com_b256_core_engine_Engine_grayscale lockFails2x2 = some r ∧
      r.pixels = lockFails2x2.pixels ∧
      r.trace = [Event.getInfo, Event.lockPixels, Event.log "engine" "Failed to lock pixels"]) ∧
    (∃ r, Java_br_com_b256_core_ndk_NativeLib_grayscale lockFails2x2 = some r ∧
      r.pixels = lockFails2x2.pixels ∧
      r.trace =
        [Event.getInfo, Event.lockPixels, Event.log "NDK_Camera" "Failed to lock pixels"]) :=
  ⟨by decide, C6_lock_failure_aborts lockFails2x2 (by decide) (by decide) (by decide)⟩

/-! ## C7: the failure kinds -/

/-- Counterexample to C8 as stated: `translucent1x1` is transformed successfully;
its pixel `0x80102030` (alpha 0x80) becomes `0xFF202020` (alpha 0xFF). -/
theorem C8_counterexample :
    translucent1x1.info.format = ANDROID_BITMAP_FORMAT_RGBA_8888 ∧
    0 ≤ translucent1x1.getInfoResult ∧ 0 ≤ translucent1x1.lockPixelsResult ∧
    loadWord translucent1x1.pixels (0 * translucent1x1.info.stride + 4 * 0) = some 0x80102030 ∧
    (Java_br_com_b256_core_engine_Engine_grayscale translucent1x1).map Run.pixels =
      some (bytesOfWords [0xFF202020]) ∧
    loadWord (bytesOfWords [0xFF202020]) (0 * translucent1x1.info.stride + 4 * 0)
      = some 0xFF202020 ∧
    alphaOf 0x80102030 = 0x80 ∧ alphaOf 0xFF202020 = 0xFF ∧
    alphaOf 0xFF202020 ≠ alphaOf 0x80102030 := by
  decide

/-- C8, amended.  The transform does not preserve alpha, it forces it to 255.
For every RGBA8888 buffer whose getInfo and lockPixels calls succeed and whose
stride is at least 4*width: the call returns when the region holds height*stride
bytes, and whenever it returns, for every pixel (x, y) in range, bits 24-31 of
the output pixel are 255, so they equal those of the input pixel exactly when the
input alpha was 255, while the three colour channels are rewritten to one equal
gray value. -/
theorem C8_alpha_forced_to_255 (b : Bitmap)
    (hf : b.info.format = ANDROID_BITMAP_FORMAT_RGBA_8888)
    (hgi : 0 ≤ b.getInfoResult) (hl : 0 ≤ b.lockPixelsResult)
    (hs : 4 * b.info.width ≤ b.info.stride) :
    (b.info.height * b.info.stride ≤ b.pixels.length →
      ∃ r, Java_br_com_b256_core_engine_Engine_grayscale b = some r) ∧
    ∀ r, Java_br_com_b256_core_engine_Engine_grayscale b = some r →
      ∀ x y, x < b.info.width → y < b.info.height →
        ∃ p q, loadWord b.pixels (y * b.info.stride + 4 * x) = some p ∧
          loadWord r.pixels (y * b.info.stride + 4 * x) = some q ∧
          alphaOf q = 255 ∧ (alphaOf q = alphaOf p ↔ alphaOf p = 255) ∧
          redOf q = greenOf q ∧ greenOf q = blueOf q := by
  refine ⟨engine_total hs, ?_⟩
  intro r hr x y hx hy
  rw [engine_gates_pass hgi hf hl] at hr
  obtain ⟨p, hp, hq⟩ := ((transform_some hr).2.2 hs).2 x y hx hy
  obtain ⟨h1, h2, h3, h4, _⟩ := grayPixel_channels p
  refine ⟨p, _, hp, hq, h4, ?_, by rw [h1, h2], by rw [h2, h3]⟩
  rw [h4]
  exact ⟨fun h => h.symm, fun h => h.symm⟩

/-- Witness of C8 (amended): `translucent1x1` returns `translucent1x1Result`. -/
theorem C8_alpha_forced_to_255_witness :
    (translucent1x1.info.format = ANDROID_BITMAP_FORMAT_RGBA_8888 ∧
      0 ≤ translucent1x1.getInfoResult ∧ 0 ≤ translucent1x1.lockPixelsResult ∧
      4 * translucent1x1.info.width ≤ translucent1x1.info.stride) ∧
    Java_br_com_b256_core_engine_Engine_grayscale translucent1x1 = some translucent1x1Result ∧
    ∀ x y, x < translucent1x1.info.width → y < translucent1x1.info.height →
      ∃ p q, loadWord translucent1x1.pixels (y * translucent1x1.info.stride + 4 * x) = some p ∧
        loadWord translucent1x1Result.pixels (y * translucent1x1.info.stride + 4 * x)
          = some q ∧
        alphaOf q = 255 ∧ (alphaOf q = alphaOf p ↔ alphaOf p = 255) ∧
        redOf q = greenOf q ∧ greenOf q = blueOf q :=
  ⟨by decide, by decide,
   (C8_alpha_forced_to_255 translucent1x1 (by decide) (by decide) (by decide)
     (by decide)).2 translucent1x1Result (by decide)⟩

/-! ## C9: bounds -/

/-- C9. Bounds safety.  For every buffer with width > 0, height > 0,
stride >= 4*width and a pixel region of at least height*stride bytes, whatever
getInfo and lockPixels return, the call returns a result (no access falls outside
the region, the out-of-range branch of the indexing is not taken), and every
word loaded or stored sits at an offset y*stride + 4*x with y < height and
x < width; each of its four bytes lies at y*stride + c with c < 4*width, so
before the stride boundary of row y, inside the height*stride bytes of the image
and inside the region. -/
theorem C9_accesses_in_bounds (b : Bitmap)
    (_ : 0 < b.info.width) (_ : 0 < b.info.height)
    (hs : 4 * b.info.width ≤ b.info.stride)
    (hlen : b.info.height * b.info.stride ≤ b.pixels.length) :
    ∃ r, Java_br_com_b256_core_engine_Engine_grayscale b = some r ∧
      ∀ off, (Event.load off ∈ r.trace ∨ Event.store off ∈ r.trace) →
        ∃ y x, y < b.info.height ∧ x < b.info.width ∧ off = y * b.info.stride + 4 * x ∧
          ∀ k, k < 4 →
            4 * x + k < 4 * b.info.width ∧ 4 * x + k < b.info.stride ∧
            off + k < b.info.height * b.info.stride ∧ off + k < b.pixels.length := by
  obtain ⟨r, hr⟩ := engine_total hs hlen
  refine ⟨r, hr, ?_⟩
  intro off hoff
  have hshape := trace_shape "engine"
    (fun h => Option.some.inj ((hr.symm.trans (engine_getInfo_fails h))))
    (fun h h' => Option.some.inj ((hr.symm.trans (engine_format_fails h h'))))
    (fun h h' h'' => Option.some.inj ((hr.symm.trans (engine_lock_fails h h' h''))))
    (fun h h' h'' => (engine_gates_pass h h' h'').symm.trans hr)
  by_cases hg : 0 ≤ b.getInfoResult ∧ b.info.format = ANDROID_BITMAP_FORMAT_RGBA_8888 ∧
      0 ≤ b.lockPixelsResult
  · obtain ⟨_, htr, _⟩ := transform_some ((engine_gates_pass hg.1 hg.2.1 hg.2.2).symm.trans hr)
    rw [htr] at hoff
    simp only [List.mem_append, List.mem_cons, List.mem_singleton, List.not_mem_nil,
      or_false, false_or, reduceCtorEq] at hoff
    have hmem : ∃ i j, i < b.info.height ∧ j < b.info.width ∧
        off = i * b.info.stride + 4 * j := by
      rcases hoff with h | h
      · obtain ⟨i, j, hi, hj, hc⟩ := mem_lineAccesses b.info _ _ _ h
        rcases hc with hc | hc
        · exact ⟨i, j, hi, hj, by have := Event.load.inj hc; omega⟩
        · cases hc
      · obtain ⟨i, j, hi, hj, hc⟩ := mem_lineAccesses b.info _ _ _ h
        rcases hc with hc | hc
        · cases hc
        · exact ⟨i, j, hi, hj, by have := Event.store.inj hc; omega⟩
    obtain ⟨y, x, hy, hx, rfl⟩ := hmem
    refine ⟨y, x, hy, hx, rfl, ?_⟩
    intro k hk
    have h1 : (y + 1) * b.info.stride ≤ b.info.height * b.info.stride :=
      Nat.mul_le_mul_right b.info.stride hy
    have e : (y + 1) * b.info.stride = y * b.info.stride + b.info.stride :=
      Nat.succ_mul y b.info.stride
    refine ⟨?_, ?_, ?_, ?_⟩ <;> omega
  · obtain ⟨_, hno, _⟩ := hshape.2.1 hg
    rcases hoff with h | h
    · exact absurd h (hno off).1
    · exact absurd h (hno off).2

/-- Witness of C9: the 2x2 scenario, whose eight accesses sit at the offsets
0, 4, 8 and 12 of a 16-byte region. -/
theorem C9_accesses_in_bounds_witness :
    (0 < scenario2x2.info.width ∧ 0 < scenario2x2.info.height ∧
      4 * scenario2x2.info.width ≤ scenario2x2.info.stride ∧
      scenario2x2.info.height * scenario2x2.info.stride ≤ scenario2x2.pixels.length) ∧
    ∃ r, Java_br_com_b256_core_engine_Engine_grayscale scenario2x2 = some r ∧
      ∀ off, (Event.load off ∈ r.trace ∨ Event.store off ∈ r.trace) →
        ∃ y x, y < scenario2x2.info.height ∧ x < scenario2x2.info.width ∧
          off = y * scenario2x2.info.stride + 4 * x ∧
          ∀ k, k < 4 →
            4 * x + k < 4 * scenario2x2.info.width ∧ 4 * x + k < scenario2x2.info.stride ∧
            off + k < scenario2x2.info.height * scenario2x2.info.stride ∧
            off + k < scenario2x2.pixels.length :=
  ⟨by decide,
   C9_accesses_in_bounds scenario2x2 (by decide) (by decide) (by decide) (by decide)⟩

/-! ## C10: acquire, traverse, release -/

/-- C10. Release follows acquisition, in both entry points.  For every returning
call: if getInfo succeeded, the format check passed and lockPixels succeeded, the
trace is getInfo, lockPixels, then only pixel loads and stores, then
unlockPixels, which so occurs exactly once and after the last store; otherwise
unlockPixels is never called, no pixel is loaded or stored and the buffer is as it
was; and lockPixels appears in a trace only if getInfo succeeded and the format
check passed.  A call does return when stride >= 4*width and the region holds
height*stride bytes. -/
theorem C10_release_follows_acquisition (b : Bitmap) :
    (∀ r, (Java_br_com_b256_core_engine_Engine_grayscale b = some r ∨
        Java_br_com_b256_core_ndk_NativeLib_grayscale b = some r) →
      ((0 ≤ b.getInfoResult ∧ b.info.format = ANDROID_BITMAP_FORMAT_RGBA_8888 ∧
          0 ≤ b.lockPixelsResult) →
        (∃ acc, r.trace = [Event.getInfo, Event.lockPixels] ++ acc ++ [Event.unlockPixels] ∧
          ∀ e ∈ acc, ∃ off, e = Event.load off ∨ e = Event.store off) ∧
        r.trace.count Event.unlockPixels = 1) ∧
      (¬ (0 ≤ b.getInfoResult ∧ b.info.format = ANDROID_BITMAP_FORMAT_RGBA_8888 ∧
          0 ≤ b.lockPixelsResult) →
        Event.unlockPixels ∉ r.trace ∧
        (∀ off, Event.load off ∉ r.trace ∧ Event.store off ∉ r.trace) ∧
        r.pixels = b.pixels) ∧
      (Event.lockPixels ∈ r.trace →
        0 ≤ b.getInfoResult ∧ b.info.format = ANDROID_BITMAP_FORMAT_RGBA_8888)) ∧
    (4 * b.info.width ≤ b.info.stride → b.info.height * b.info.stride ≤ b.pixels.length →
      (∃ r, Java_br_com_b256_core_engine_Engine_grayscale b = some r) ∧
      ∃ r, Java_br_com_b256_core_ndk_NativeLib_grayscale b = some r) := by
  refine ⟨?_, ?_⟩
  · intro r hr
    rcases hr with hr | hr
    · exact trace_shape "engine"
        (fun h => Option.some.inj ((hr.symm.trans (engine_getInfo_fails h))))
        (fun h h' => Option.some.inj ((hr.symm.trans (engine_format_fails h h'))))
        (fun h h' h'' => Option.some.inj ((hr.symm.trans (engine_lock_fails h h' h''))))
        (fun h h' h'' => (engine_gates_pass h h' h'').symm.trans hr)
    · exact trace_shape "NDK_Camera"
        (fun h => Option.some.inj ((hr.symm.trans (ndk_getInfo_fails h))))
        (fun h h' => Option.some.inj ((hr.symm.trans (ndk_format_fails h h'))))
        (fun h h' h'' => Option.some.inj ((hr.symm.trans (ndk_lock_fails h h' h''))))
        (fun h h' h'' => (ndk_gates_pass h h' h'').symm.trans hr)
  · intro hs hlen
    exact ⟨engine_total hs hlen, ndk_total hs hlen⟩

/-- Witness of C10: the 2x2 scenario passes the three gates; its trace is
getInfo, lockPixels, eight accesses, unlockPixels. -/
theorem C10_release_follows_acquisition_witness :
    (0 ≤ scenario2x2.getInfoResult ∧
      scenario2x2.info.format = ANDROID_BITMAP_FORMAT_RGBA_8888 ∧
      0 ≤ scenario2x2.lockPixelsResult) ∧
    Java_br_com_b256_core_engine_Engine_grayscale scenario2x2 = some scenario2x2Result ∧
    (∃ acc, scenario2x2Result.trace =
        [Event.getInfo, Event.lockPixels] ++ acc ++ [Event.unlockPixels] ∧
      ∀ e ∈ acc, ∃ off, e = Event.load off ∨ e = Event.store off) ∧
    scenario2x2Result.trace.count Event.unlockPixels = 1 :=
  ⟨by decide, by decide,
   ((C10_release_follows_acquisition scenario2x2).1 scenario2x2Result
      (Or.inl (by decide))).1 (by decide)⟩

/-! ## Retagging a trace -/

theorem retag_lineAccesses (tag : String) (info : AndroidBitmapInfo) (line n : Nat) :
    (lineAccesses info line n).map (retag tag) = lineAccesses info line n := by
  have h : ∀ e ∈ lineAccesses info line n, retag tag e = id e := by
    intro e he
    obtain ⟨off, hc⟩ := lineAccesses_kind info line n e he
    rcases hc with rfl | rfl <;> rfl
  rw [List.map_congr_left h, List.map_id]

theorem retagRun_transform (tag : String) (b : Bitmap) :
    ((Engine.lineLoop b.info 0 b.info.height ⟨b.pixels, [Event.getInfo, Event.lockPixels]⟩).map
        (fun s => (⟨s.pixels, s.trace ++ [Event.unlockPixels]⟩ : Run))).map (retagRun tag) =
      (Engine.lineLoop b.info 0 b.info.height ⟨b.pixels, [Event.getInfo, Event.lockPixels]⟩).map
        (fun s => (⟨s.pixels, s.trace ++ [Event.unlockPixels]⟩ : Run)) := by
  cases hl : Engine.lineLoop b.info 0 b.info.height ⟨b.pixels, [Event.getInfo, Event.lockPixels]⟩ with
  | none => rfl
  | some s =>
    obtain ⟨_, htr⟩ := lineLoop_trace b.info b.info.height 0 _ s hl
    simp only [Option.map_some', retagRun, htr, List.map_append, retag_lineAccesses]
    rfl

/-! ## Colour permutations -/

theorem colourOf_lt (p : Nat) (i : Fin 3) : colourOf p i < 256 := by
  have hr : redOf p < 256 := Nat.mod_lt _ (by decide)
  have hg : greenOf p < 256 := Nat.mod_lt _ (by decide)
  have hb : blueOf p < 256 := Nat.mod_lt _ (by decide)
  fin_cases i <;> simpa [colourOf]

theorem channels_of_bytes (a r g b : Nat) (ha : a < 256) (hr : r < 256) (hg : g < 256) (hb : b < 256) :
    alphaOf (a * 2 ^ 24 + r * 2 ^ 16 + g * 2 ^ 8 + b) = a ∧
    redOf (a * 2 ^ 24 + r * 2 ^ 16 + g * 2 ^ 8 + b) = r ∧
    greenOf (a * 2 ^ 24 + r * 2 ^ 16 + g * 2 ^ 8 + b) = g ∧
    blueOf (a * 2 ^ 24 + r * 2 ^ 16 + g * 2 ^ 8 + b) = b := by
  simp only [alphaOf, redOf, greenOf, blueOf, Nat.reducePow]
  refine ⟨?_, ?_, ?_, ?_⟩ <;> omega

theorem colour_sum_perm (σ : Equiv.Perm (Fin 3)) (p : Nat) :
    colourOf p (σ 2) + colourOf p (σ 1) + colourOf p (σ 0) = redOf p + greenOf p + blueOf p := by
  have h := Equiv.sum_comp σ (colourOf p)
  rw [Fin.sum_univ_three, Fin.sum_univ_three] at h
  simp only [colourOf] at h ⊢
  omega

theorem grayPixel_permuteColours (σ : Equiv.Perm (Fin 3)) (p : Nat) :
    Engine.grayPixel (permuteColours σ p) = Engine.grayPixel p := by
  have ha : alphaOf p < 256 := Nat.mod_lt _ (by decide)
  obtain ⟨_, h2, h1, h0⟩ := channels_of_bytes (alphaOf p) _ _ _ ha (colourOf_lt p (σ 2))
    (colourOf_lt p (σ 1)) (colourOf_lt p (σ 0))
  rw [grayPixel_eq, grayPixel_eq p]
  unfold permuteColours
  rw [h2, h1, h0, colour_sum_perm]

theorem permuteColours_one (p : Nat) (hp : p < 2 ^ 32) : permuteColours 1 p = p := by
  simp only [permuteColours, Equiv.Perm.coe_one, id_eq, colourOf, alphaOf, redOf, greenOf, blueOf,
    Nat.reducePow] at hp ⊢
  omega

/-! ## Rows that may overlap -/

theorem lineLoop_frame (info : AndroidBitmapInfo) :
    ∀ (n line : Nat) (s s' : Run), Engine.lineLoop info line n s = some s' →
      ∀ o, (∀ i, i < n →
          ¬ (line + i * info.stride ≤ o ∧ o < line + i * info.stride + 4 * info.width)) →
        s'.pixels[o]? = s.pixels[o]? := by
  intro n
  induction n with
  | zero => intro line s s' h; cases h; exact fun _ _ => rfl
  | succ n ih =>
    intro line s s' h o ho
    simp only [Engine.lineLoop, Option.bind_eq_some] at h
    obtain ⟨s1, hrow, hrest⟩ := h
    obtain ⟨_, hframe1, _, _⟩ := rowLoop_some line info.width 0 s s1 hrow
    have hrow0 := ho 0 (by omega)
    rw [ih (line + info.stride) s1 s' hrest o ?_, hframe1 o (by omega)]
    intro i hi
    have := ho (i + 1) (by omega)
    have e : (i + 1) * info.stride = i * info.stride + info.stride := Nat.succ_mul i info.stride
    omega

theorem lineLoop_total_of_accesses (info : AndroidBitmapInfo) :
    ∀ (n line : Nat) (s : Run),
      (∀ i j, i < n → j < info.width → line + i * info.stride + 4 * j + 4 ≤ s.pixels.length) →
      ∃ s', Engine.lineLoop info line n s = some s' := by
  intro n
  induction n with
  | zero => intro line s _; exact ⟨s, rfl⟩
  | succ n ih =>
    intro line s hacc
    have hrow : ∃ s1, Engine.rowLoop line 0 info.width s = some s1 := by
      by_cases hw : info.width = 0
      · rw [hw]; exact ⟨s, rfl⟩
      · apply rowLoop_total
        have := hacc 0 (info.width - 1) (by omega) (by omega)
        omega
    obtain ⟨s1, hrow⟩ := hrow
    obtain ⟨hlen1, _⟩ := rowLoop_some line info.width 0 s s1 hrow
    obtain ⟨s', hrest⟩ := ih (line + info.stride) s1 (by
      intro i j hi hj
      have := hacc (i + 1) j (by omega) hj
      have e : (i + 1) * info.stride = i * info.stride + info.stride := Nat.succ_mul i info.stride
      rw [hlen1]; omega)
    exact ⟨s', by simp [Engine.lineLoop, hrow, hrest]⟩

/-- One aligned step keeps every aligned word either as it was at the start or
as the gray of what it was at the start, and leaves the visited word gray. -/
theorem pixelStep_aligned (mem0 : List (Fin 256)) {line x : Nat} {s s' : Run}
    (hline : line % 4 = 0) (h : Engine.pixelStep line x s = some s')
    (hinv : ∀ off, off % 4 = 0 → loadWord s.pixels off = loadWord mem0 off ∨
      ∃ p, loadWord mem0 off = some p ∧ loadWord s.pixels off = some (Engine.grayPixel p)) :
    (∀ off, off % 4 = 0 → loadWord s'.pixels off = loadWord mem0 off ∨
      ∃ p, loadWord mem0 off = some p ∧ loadWord s'.pixels off = some (Engine.grayPixel p)) ∧
    (∃ p, loadWord mem0 (line + 4 * x) = some p ∧
      loadWord s'.pixels (line + 4 * x) = some (Engine.grayPixel p)) ∧
    (∀ off, off % 4 = 0 →
      (∃ p, loadWord mem0 off = some p ∧ loadWord s.pixels off = some (Engine.grayPixel p)) →
      ∃ p, loadWord mem0 off = some p ∧ loadWord s'.pixels off = some (Engine.grayPixel p)) := by
  obtain ⟨q, hload, hstore, _⟩ := pixelStep_some h
  have hnew : loadWord s'.pixels (line + 4 * x) = some (Engine.grayPixel q) := by
    rw [loadWord_storeWord hstore, Nat.mod_eq_of_lt (grayPixel_lt q)]
  have hother : ∀ off, off % 4 = 0 → off ≠ line + 4 * x →
      loadWord s'.pixels off = loadWord s.pixels off := by
    intro off ho hne
    exact loadWord_congr (fun k hk => storeWord_get_outside hstore _ (by omega))
  have hdone : ∃ p, loadWord mem0 (line + 4 * x) = some p ∧
      loadWord s'.pixels (line + 4 * x) = some (Engine.grayPixel p) := by
    rcases hinv (line + 4 * x) (by omega) with h0 | ⟨p, hp0, hp⟩
    · exact ⟨q, by rw [← h0, hload], hnew⟩
    · have hq : q = Engine.grayPixel p := Option.some.inj (hload.symm.trans hp)
      exact ⟨p, hp0, by rw [hnew, hq, grayPixel_idem]⟩
  refine ⟨?_, hdone, ?_⟩
  · intro off ho
    by_cases hne : off = line + 4 * x
    · rw [hne]; exact Or.inr hdone
    · rw [hother off ho hne]; exact hinv off ho
  · intro off ho hd
    by_cases hne : off = line + 4 * x
    · rw [hne]; exact hdone
    · rw [hother off ho hne]; exact hd

theorem rowLoop_aligned (mem0 : List (Fin 256)) {line : Nat} (hline : line % 4 = 0) :
    ∀ (n x : Nat) (s s' : Run), Engine.rowLoop line x n s = some s' →
    (∀ off, off % 4 = 0 → loadWord s.pixels off = loadWord mem0 off ∨
      ∃ p, loadWord mem0 off = some p ∧ loadWord s.pixels off = some (Engine.grayPixel p)) →
    (∀ off, off % 4 = 0 → loadWord s'.pixels off = loadWord mem0 off ∨
      ∃ p, loadWord mem0 off = some p ∧ loadWord s'.pixels off = some (Engine.grayPixel p)) ∧
    (∀ j, j < n → ∃ p, loadWord mem0 (line + 4 * (x + j)) = some p ∧
      loadWord s'.pixels (line + 4 * (x + j)) = some (Engine.grayPixel p)) ∧
    (∀ off, off % 4 = 0 →
      (∃ p, loadWord mem0 off = some p ∧ loadWord s.pixels off = some (Engine.grayPixel p)) →
      ∃ p, loadWord mem0 off = some p ∧ loadWord s'.pixels off = some (Engine.grayPixel p)) := by
  intro n
  induction n with
  | zero =>
    intro x s s' h hinv
    cases h
    exact ⟨hinv, fun j hj => absurd hj (Nat.not_lt_zero j), fun _ _ hd => hd⟩
  | succ n ih =>
    intro x s s' h hinv
    simp only [Engine.rowLoop, Option.bind_eq_some] at h
    obtain ⟨s1, hstep, hrow⟩ := h
    obtain ⟨hinv1, hdone1, hkeep1⟩ := pixelStep_aligned mem0 hline hstep hinv
    obtain ⟨hinv', hdone', hkeep'⟩ := ih (x + 1) s1 s' hrow hinv1
    refine ⟨hinv', ?_, fun off ho hd => hkeep' off ho (hkeep1 off ho hd)⟩
    intro j hj
    cases j with
    | zero => exact hkeep' _ (by omega) hdone1
    | succ j =>
      have e : line + 4 * (x + (j + 1)) = line + 4 * (x + 1 + j) := by omega
      rw [e]
      exact hdone' j (by omega)

theorem lineLoop_aligned (mem0 : List (Fin 256)) (info : AndroidBitmapInfo)
    (hstride : info.stride % 4 = 0) :
    ∀ (n line : Nat) (s s' : Run), line % 4 = 0 → Engine.lineLoop info line n s = some s' →
    (∀ off, off % 4 = 0 → loadWord s.pixels off = loadWord mem0 off ∨
      ∃ p, loadWord mem0 off = some p ∧ loadWord s.pixels off = some (Engine.grayPixel p)) →
    (∀ off, off % 4 = 0 → loadWord s'.pixels off = loadWord mem0 off ∨
      ∃ p, loadWord mem0 off = some p ∧ loadWord s'.pixels off = some (Engine.grayPixel p)) ∧
    (∀ i j, i < n → j < info.width →
      ∃ p, loadWord mem0 (line + i * info.stride + 4 * j) = some p ∧
        loadWord s'.pixels (line + i * info.stride + 4 * j) = some (Engine.grayPixel p)) ∧
    (∀ off, off % 4 = 0 →
      (∃ p, loadWord mem0 off = some p ∧ loadWord s.pixels off = some (Engine.grayPixel p)) →
      ∃ p, loadWord mem0 off = some p ∧ loadWord s'.pixels off = some (Engine.grayPixel p)) := by
  intro n
  induction n with
  | zero =>
    intro line s s' _ h hinv
    cases h
    exact ⟨hinv, fun i j hi _ => absurd hi (Nat.not_lt_zero i), fun _ _ hd => hd⟩
  | succ n ih =>
    intro line s s' hline h hinv
    simp only [Engine.lineLoop, Option.bind_eq_some] at h
    obtain ⟨s1, hrow, hrest⟩ := h
    obtain ⟨hinv1, hdone1, hkeep1⟩ := rowLoop_aligned mem0 hline info.width 0 s s1 hrow hinv
    obtain ⟨hinv', hdone', hkeep'⟩ := ih (line + info.stride) s1 s' (by omega) hrest hinv1
    refine ⟨hinv', ?_, fun off ho hd => hkeep' off ho (hkeep1 off ho hd)⟩
    intro i j hi hj
    cases i with
    | zero =>
      have := hkeep' _ (by omega) (hdone1 j hj)
      simpa using this
    | succ i =>
      have e : (i + 1) * info.stride = i * info.stride + info.stride := Nat.succ_mul i info.stride
      have e2 : line + (i + 1) * info.stride + 4 * j
          = line + info.stride + i * info.stride + 4 * j := by omega
      rw [e2]
      exact hdone' i j (by omega) hj

/-- With a stride that is a multiple of 4, every visited word of a run that
passed the gates ends as the gray of the word first found there. -/
theorem transform_aligned {b : Bitmap} {r : Run} (hstride : b.info.stride % 4 = 0)
    (h : (Engine.lineLoop b.info 0 b.info.height ⟨b.pixels, [Event.getInfo, Event.lockPixels]⟩).map
        (fun s => (⟨s.pixels, s.trace ++ [Event.unlockPixels]⟩ : Run)) = some r) :
    ∀ x y, x < b.info.width → y < b.info.height →
      ∃ p, loadWord b.pixels (y * b.info.stride + 4 * x) = some p ∧
        loadWord r.pixels (y * b.info.stride + 4 * x) = some (Engine.grayPixel p) := by
  simp only [Option.map_eq_some'] at h
  obtain ⟨s, hs, rfl⟩ := h
  obtain ⟨_, hdone, _⟩ := lineLoop_aligned b.pixels b.info hstride b.info.height 0 _ s rfl hs
    (fun _ _ => Or.inl rfl)
  intro x y hx hy
  have := hdone y x hy hx
  simpa using this

theorem transform_total_of_accesses {b : Bitmap}
    (hacc : ∀ x y, x < b.info.width → y < b.info.height →
      y * b.info.stride + 4 * x + 4 ≤ b.pixels.length) :
    ∃ r, (Engine.lineLoop b.info 0 b.info.height ⟨b.pixels, [Event.getInfo, Event.lockPixels]⟩).map
        (fun s => (⟨s.pixels, s.trace ++ [Event.unlockPixels]⟩ : Run)) = some r := by
  obtain ⟨s, h⟩ := lineLoop_total_of_accesses b.info b.info.height 0
    ⟨b.pixels, [Event.getInfo, Event.lockPixels]⟩ (by
      intro i j hi hj
      have := hacc j i hj hi
      simpa using this)
  exact ⟨_, by rw [h]; rfl⟩

/-! ## Two runs on buffers that agree on the colour bytes -/

theorem loadWord_lt {mem : List (Fin 256)} {off w : Nat} (h : loadWord mem off = some w) :
    w < 2 ^ 32 := by
  obtain ⟨w', hw', hlt⟩ := loadWord_isSome (loadWord_inRange h)
  have : w = w' := Option.some.inj (h.symm.trans hw')
  rw [this]; exact hlt

theorem colour_bytes_of_low_bits {m1 m2 : List (Fin 256)} {off p1 p2 : Nat}
    (h1 : loadWord m1 off = some p1) (h2 : loadWord m2 off = some p2)
    (hp : p1 % 2 ^ 24 = p2 % 2 ^ 24) : ∀ k, k < 3 → m1[off + k]? = m2[off + k]? := by
  intro k hk
  rw [loadWord_get_byte h1 k (by omega), loadWord_get_byte h2 k (by omega)]
  congr 1
  apply Fin.ext
  have hcases : k = 0 ∨ k = 1 ∨ k = 2 := by omega
  rcases hcases with rfl | rfl | rfl <;>
    simp only [byteOf, Nat.reducePow, Nat.div_one] at hp ⊢ <;> omega

theorem grayPixel_of_colour_bytes {m1 m2 : List (Fin 256)} {off p1 p2 : Nat}
    (h1 : loadWord m1 off = some p1) (h2 : loadWord m2 off = some p2)
    (hb : ∀ k, k < 3 → m1[off + k]? = m2[off + k]?) :
    Engine.grayPixel p1 = Engine.grayPixel p2 := by
  have e0 := hb 0 (by decide)
  have e1 := hb 1 (by decide)
  have e2 := hb 2 (by decide)
  rw [loadWord_get_byte h1 0 (by decide), loadWord_get_byte h2 0 (by decide)] at e0
  rw [loadWord_get_byte h1 1 (by decide), loadWord_get_byte h2 1 (by decide)] at e1
  rw [loadWord_get_byte h1 2 (by decide), loadWord_get_byte h2 2 (by decide)] at e2
  have v0 := congrArg Fin.val (Option.some.inj e0)
  have v1 := congrArg Fin.val (Option.some.inj e1)
  have v2 := congrArg Fin.val (Option.some.inj e2)
  simp only [byteOf, Nat.reducePow, Nat.pow_zero, Nat.div_one, Nat.pow_one] at v0 v1 v2
  have hr : redOf p1 = redOf p2 := by simp only [redOf, Nat.reducePow]; exact v2
  have hg : greenOf p1 = greenOf p2 := by simp only [greenOf, Nat.reducePow]; exact v1
  have hb' : blueOf p1 = blueOf p2 := by simp only [blueOf]; exact v0
  rw [grayPixel_eq, grayPixel_eq, hr, hg, hb']

theorem pixelStep_agree {line x : Nat} {s1 s2 s1' s2' : Run}
    (h1 : Engine.pixelStep line x s1 = some s1') (h2 : Engine.pixelStep line x s2 = some s2')
    (hb : ∀ k, k < 3 → s1.pixels[line + 4 * x + k]? = s2.pixels[line + 4 * x + k]?) :
    (∀ o : Nat, s1.pixels[o]? = s2.pixels[o]? → s1'.pixels[o]? = s2'.pixels[o]?) ∧
    (∀ k, k < 4 → s1'.pixels[line + 4 * x + k]? = s2'.pixels[line + 4 * x + k]?) := by
  obtain ⟨p1, hl1, hst1, _⟩ := pixelStep_some h1
  obtain ⟨p2, hl2, hst2, _⟩ := pixelStep_some h2
  have hg := grayPixel_of_colour_bytes hl1 hl2 hb
  have hin : ∀ k, k < 4 → s1'.pixels[line + 4 * x + k]? = s2'.pixels[line + 4 * x + k]? := by
    intro k hk
    rw [storeWord_get_inside hst1 k hk, storeWord_get_inside hst2 k hk, hg]
  refine ⟨?_, hin⟩
  intro o ho
  by_cases hc : line + 4 * x ≤ o ∧ o < line + 4 * x + 4
  · have := hin (o - (line + 4 * x)) (by omega)
    have e : line + 4 * x + (o - (line + 4 * x)) = o := by omega
    rw [e] at this
    exact this
  · rw [storeWord_get_outside hst1 o (by omega), storeWord_get_outside hst2 o (by omega)]
    exact ho

theorem rowLoop_agree (line : Nat) : ∀ (n x : Nat) (s1 s2 s1' s2' : Run),
    Engine.rowLoop line x n s1 = some s1' → Engine.rowLoop line x n s2 = some s2' →
    (∀ j k, j < n → k < 3 →
      s1.pixels[line + 4 * (x + j) + k]? = s2.pixels[line + 4 * (x + j) + k]?) →
    (∀ o : Nat, s1.pixels[o]? = s2.pixels[o]? → s1'.pixels[o]? = s2'.pixels[o]?) ∧
    (∀ j k, j < n → k < 4 →
      s1'.pixels[line + 4 * (x + j) + k]? = s2'.pixels[line + 4 * (x + j) + k]?) := by
  intro n
  induction n with
  | zero =>
    intro x s1 s2 s1' s2' h1 h2 _
    cases h1; cases h2
    exact ⟨fun _ h => h, fun j k hj _ => absurd hj (Nat.not_lt_zero j)⟩
  | succ n ih =>
    intro x s1 s2 s1' s2' h1 h2 hb
    simp only [Engine.rowLoop, Option.bind_eq_some] at h1 h2
    obtain ⟨t1, hstep1, hrow1⟩ := h1
    obtain ⟨t2, hstep2, hrow2⟩ := h2
    obtain ⟨hmono, hin⟩ := pixelStep_agree hstep1 hstep2 (by
      intro k hk
      have := hb 0 k (by omega) hk
      simpa using this)
    obtain ⟨hmono', hin'⟩ := ih (x + 1) t1 t2 s1' s2' hrow1 hrow2 (by
      intro j k hj hk
      apply hmono
      have := hb (j + 1) k (by omega) hk
      have e : line + 4 * (x + (j + 1)) = line + 4 * (x + 1 + j) := by omega
      rw [e] at this
      exact this)
    refine ⟨fun o ho => hmono' o (hmono o ho), ?_⟩
    intro j k hj hk
    cases j with
    | zero =>
      apply hmono'
      have := hin k hk
      simpa using this
    | succ j =>
      have e : line + 4 * (x + (j + 1)) = line + 4 * (x + 1 + j) := by omega
      rw [e]
      exact hin' j k (by omega) hk

theorem lineLoop_agree (info : AndroidBitmapInfo) : ∀ (n line : Nat) (s1 s2 s1' s2' : Run),
    Engine.lineLoop info line n s1 = some s1' → Engine.lineLoop info line n s2 = some s2' →
    (∀ i j k, i < n → j < info.width → k < 3 →
      s1.pixels[line + i * info.stride + 4 * j + k]?
        = s2.pixels[line + i * info.stride + 4 * j + k]?) →
    (∀ o : Nat, s1.pixels[o]? = s2.pixels[o]? → s1'.pixels[o]? = s2'.pixels[o]?) ∧
    (∀ i j k, i < n → j < info.width → k < 4 →
      s1'.pixels[line + i * info.stride + 4 * j + k]?
        = s2'.pixels[line + i * info.stride + 4 * j + k]?) := by
  intro n
  induction n with
  | zero =>
    intro line s1 s2 s1' s2' h1 h2 _
    cases h1; cases h2
    exact ⟨fun _ h => h, fun i j k hi _ _ => absurd hi (Nat.not_lt_zero i)⟩
  | succ n ih =>
    intro line s1 s2 s1' s2' h1 h2 hb
    simp only [Engine.lineLoop, Option.bind_eq_some] at h1 h2
    obtain ⟨t1, hrow1, hrest1⟩ := h1
    obtain ⟨t2, hrow2, hrest2⟩ := h2
    obtain ⟨hmono, hin⟩ := rowLoop_agree line info.width 0 s1 s2 t1 t2 hrow1 hrow2 (by
      intro j k hj hk
      have := hb 0 j k (by omega) hj hk
      simpa using this)
    obtain ⟨hmono', hin'⟩ := ih (line + info.stride) t1 t2 s1' s2' hrest1 hrest2 (by
      intro i j k hi hj hk
      apply hmono
      have := hb (i + 1) j k (by omega) hj hk
      have e : (i + 1) * info.stride = i * info.stride + info.stride := Nat.succ_mul i info.stride
      have e2 : line + (i + 1) * info.stride + 4 * j + k
          = line + info.stride + i * info.stride + 4 * j + k := by omega
      rw [e2] at this
      exact this)
    refine ⟨fun o ho => hmono' o (hmono o ho), ?_⟩
    intro i j k hi hj hk
    cases i with
    | zero =>
      apply hmono'
      have := hin j k hj hk
      simpa using this
    | succ i =>
      have e : (i + 1) * info.stride = i * info.stride + info.stride := Nat.succ_mul i info.stride
      have e2 : line + (i + 1) * info.stride + 4 * j + k
          = line + info.stride + i * info.stride + 4 * j + k := by omega
      rw [e2]
      exact hin' i j k (by omega) hj hk

theorem lineLoop_inRange (info : AndroidBitmapInfo) : ∀ (n line : Nat) (s s' : Run),
    Engine.lineLoop info line n s = some s' →
    ∀ i j, i < n → j < info.width → line + i * info.stride + 4 * j + 4 ≤ s.pixels.length := by
  intro n
  induction n with
  | zero => intro line s s' _ i j hi; exact absurd hi (Nat.not_lt_zero i)
  | succ n ih =>
    intro line s s' h i j hi hj
    simp only [Engine.lineLoop, Option.bind_eq_some] at h
    obtain ⟨s1, hrow, hrest⟩ := h
    obtain ⟨hlen1, _, hpix1, _⟩ := rowLoop_some line info.width 0 s s1 hrow
    cases i with
    | zero =>
      obtain ⟨p, hp, _⟩ := hpix1 j hj
      have := loadWord_inRange hp
      omega
    | succ i =>
      have := ih (line + info.stride) s1 s' hrest i j (by omega) hj
      have e : (i + 1) * info.stride = i * info.stride + info.stride := Nat.succ_mul i info.stride
      rw [hlen1] at this
      omega

/-! ## Fixed points of the pixel transform -/

theorem pixel_decompose (p : Nat) (hp : p < 2 ^ 32) :
    p = alphaOf p * 16777216 + redOf p * 65536 + greenOf p * 256 + blueOf p := by
  simp only [alphaOf, redOf, greenOf, blueOf, Nat.reducePow] at hp ⊢
  omega

theorem grayPixel_fixed_iff (p : Nat) (hp : p < 2 ^ 32) :
    Engine.grayPixel p = p ↔
      alphaOf p = 255 ∧ redOf p = greenOf p ∧ greenOf p = blueOf p := by
  obtain ⟨h1, h2, h3, h4, _⟩ := grayPixel_channels p
  constructor
  · intro h
    rw [h] at h1 h2 h3 h4
    exact ⟨h4, by omega, by omega⟩
  · intro ⟨ha, hrg, hgb⟩
    have hd := pixel_decompose p hp
    have hsum : (redOf p + greenOf p + blueOf p) / 3 = blueOf p := by omega
    rw [grayPixel_eq, hsum]
    omega

/-- A run that passed the gates, over rows that are disjoint or aligned, leaves
the buffer as it was exactly when every in-range pixel was a fixed point. -/
theorem transform_unchanged_iff {b : Bitmap} {r : Run}
    (hs : 4 * b.info.width ≤ b.info.stride ∨ b.info.stride % 4 = 0)
    (h : (Engine.lineLoop b.info 0 b.info.height ⟨b.pixels, [Event.getInfo, Event.lockPixels]⟩).map
        (fun s => (⟨s.pixels, s.trace ++ [Event.unlockPixels]⟩ : Run)) = some r) :
    r.pixels = b.pixels ↔
      ∀ x y, x < b.info.width → y < b.info.height →
        ∃ p, loadWord b.pixels (y * b.info.stride + 4 * x) = some p ∧
          alphaOf p = 255 ∧ redOf p = greenOf p ∧ greenOf p = blueOf p := by
  have hpix : ∀ x y, x < b.info.width → y < b.info.height →
      ∃ p, loadWord b.pixels (y * b.info.stride + 4 * x) = some p ∧
        loadWord r.pixels (y * b.info.stride + 4 * x) = some (Engine.grayPixel p) := by
    rcases hs with hs | hs
    · exact ((transform_some h).2.2 hs).2
    · exact transform_aligned hs h
  constructor
  · intro heq x y hx hy
    obtain ⟨p, hp, hq⟩ := hpix x y hx hy
    rw [heq, hp] at hq
    exact ⟨p, hp, (grayPixel_fixed_iff p (loadWord_lt hp)).mp (Option.some.inj hq).symm⟩
  · intro hall
    have h' := h
    simp only [Option.map_eq_some'] at h'
    obtain ⟨s, hs', rfl⟩ := h'
    have hframe := lineLoop_frame b.info b.info.height 0 _ s hs'
    apply List.ext_getElem?
    intro o
    show s.pixels[o]? = b.pixels[o]?
    by_cases hin : ∃ y, y < b.info.height ∧ y * b.info.stride ≤ o ∧
        o < y * b.info.stride + 4 * b.info.width
    · obtain ⟨y, hy, hlo, hhi⟩ := hin
      obtain ⟨x, k, hx, hk, rfl⟩ : ∃ x k, x < b.info.width ∧ k < 4 ∧
          o = y * b.info.stride + 4 * x + k :=
        ⟨(o - y * b.info.stride) / 4, (o - y * b.info.stride) % 4, by omega, by omega, by omega⟩
      obtain ⟨p, hp, hq⟩ := hpix x y hx hy
      obtain ⟨p', hp', hfix⟩ := hall x y hx hy
      have hpp : p' = p := Option.some.inj (hp'.symm.trans hp)
      rw [hpp] at hfix
      rw [(grayPixel_fixed_iff p (loadWord_lt hp)).mpr hfix] at hq
      exact (loadWord_get_byte hq k hk).trans (loadWord_get_byte hp k hk).symm
    · apply hframe
      intro i hi hc
      apply hin
      exact ⟨i, hi, by omega, by omega⟩

/-! ## C11: the two entry points -/

/-- C11. The two entry points are equivalent.  For every bitmap, whatever getInfo
and lockPixels return, `NativeLib.grayscale` (ndk.cpp) returns exactly when
`Engine.grayscale` (engine.cpp) does, with the same final bytes and the same
trace (the same platform calls, the same pixel accesses, the same log texts, in
the same order) once the log lines are put under its own tag "NDK_Camera"; and
conversely with the tag "engine". -/
theorem C11_entry_points_equivalent (b : Bitmap) :
    Java_br_com_b256_core_ndk_NativeLib_grayscale b =
      (Java_br_com_b256_core_engine_Engine_grayscale b).map (retagRun "NDK_Camera") ∧
    Java_br_com_b256_core_engine_Engine_grayscale b =
      (Java_br_com_b256_core_ndk_NativeLib_grayscale b).map (retagRun "engine") := by
  by_cases hgi : b.getInfoResult < 0
  · rw [engine_getInfo_fails hgi, ndk_getInfo_fails hgi]
    exact ⟨rfl, rfl⟩
  have hgi' := Int.not_lt.mp hgi
  by_cases hf : b.info.format = ANDROID_BITMAP_FORMAT_RGBA_8888
  · by_cases hl : b.lockPixelsResult < 0
    · rw [engine_lock_fails hgi' hf hl, ndk_lock_fails hgi' hf hl]
      exact ⟨rfl, rfl⟩
    · rw [engine_gates_pass hgi' hf (Int.not_lt.mp hl), ndk_gates_pass hgi' hf (Int.not_lt.mp hl),
        retagRun_transform, retagRun_transform]
      exact ⟨rfl, rfl⟩
  · rw [engine_format_fails hgi' hf, ndk_format_fails hgi' hf]
    exact ⟨rfl, rfl⟩

/-! ## C12: the input alpha -/

/-- Counterexample to C12 as stated: `lockFails1x1` and `lockFails1x1Alpha40` have
the same geometry and the same platform outcomes, their one pixel agrees on bits
0-23 (`0x102030`) and differs only in alpha (0x80, 0x40); lockPixels fails, so
each call returns its buffer untouched and the two output buffers differ. -/
theorem C12_counterexample :
    lockFails1x1Alpha40.info = lockFails1x1.info ∧
    lockFails1x1Alpha40.getInfoResult = lockFails1x1.getInfoResult ∧
    lockFails1x1Alpha40.lockPixelsResult = lockFails1x1.lockPixelsResult ∧
    loadWord lockFails1x1.pixels 0 = some 0x80102030 ∧
    loadWord lockFails1x1Alpha40.pixels 0 = some 0x40102030 ∧
    0x80102030 % 2 ^ 24 = 0x40102030 % 2 ^ 24 ∧
    (Java_br_com_b256_core_engine_Engine_grayscale lockFails1x1).map Run.pixels =
      some (bytesOfWords [0x80102030]) ∧
    (Java_br_com_b256_core_engine_Engine_grayscale lockFails1x1Alpha40).map Run.pixels =
      some (bytesOfWords [0x40102030]) ∧
    bytesOfWords [0x80102030] ≠ bytesOfWords [0x40102030] := by
  decide

/-- C12, amended.  On calls that pass the three gates the input alpha does not
influence the result.  For any two RGBA8888 buffers with the same geometry and
region size, whose getInfo and lockPixels calls succeed, whose in-range pixels
agree on bits 0-23 and whose bytes differ only in the alpha byte (bits 24-31) of
in-range pixels: whenever the call on the first returns, the call on the second
returns too, and the two output buffers are identical.  No condition on the
stride is needed. -/
theorem C12_alpha_does_not_influence (b1 b2 : Bitmap)
    (hinfo : b2.info = b1.info) (hlen : b2.pixels.length = b1.pixels.length)
    (hf : b1.info.format = ANDROID_BITMAP_FORMAT_RGBA_8888)
    (hgi1 : 0 ≤ b1.getInfoResult) (hl1 : 0 ≤ b1.lockPixelsResult)
    (hgi2 : 0 ≤ b2.getInfoResult) (hl2 : 0 ≤ b2.lockPixelsResult)
    (hrgb : ∀ x y, x < b1.info.width → y < b1.info.height →
      (loadWord b1.pixels (y * b1.info.stride + 4 * x)).map (fun p => p % 2 ^ 24) =
        (loadWord b2.pixels (y * b1.info.stride + 4 * x)).map (fun p => p % 2 ^ 24))
    (hdiff : ∀ o : Nat, b1.pixels[o]? ≠ b2.pixels[o]? →
      ∃ x y, x < b1.info.width ∧ y < b1.info.height ∧ o = y * b1.info.stride + 4 * x + 3) :
    ∀ r1, Java_br_com_b256_core_engine_Engine_grayscale b1 = some r1 →
      ∃ r2, Java_br_com_b256_core_engine_Engine_grayscale b2 = some r2 ∧
        r2.pixels = r1.pixels := by
  intro r1 h1
  rw [engine_gates_pass hgi1 hf hl1] at h1
  rw [engine_gates_pass hgi2 (hinfo ▸ hf) hl2, hinfo]
  simp only [Option.map_eq_some'] at h1
  obtain ⟨s1, hs1, rfl⟩ := h1
  obtain ⟨s2, hs2⟩ := lineLoop_some_of_length b1.info b1.info.height 0 _ s1
    ⟨b2.pixels, [Event.getInfo, Event.lockPixels]⟩ hs1 hlen
  refine ⟨⟨s2.pixels, s2.trace ++ [Event.unlockPixels]⟩, by rw [hs2]; rfl, ?_⟩
  have hr1 := lineLoop_inRange b1.info b1.info.height 0 _ s1 hs1
  have hr2 := lineLoop_inRange b1.info b1.info.height 0 _ s2 hs2
  have hcol : ∀ i j k, i < b1.info.height → j < b1.info.width → k < 3 →
      b1.pixels[0 + i * b1.info.stride + 4 * j + k]?
        = b2.pixels[0 + i * b1.info.stride + 4 * j + k]? := by
    intro i j k hi hj hk
    have hi1 : 0 + i * b1.info.stride + 4 * j + 4 ≤ b1.pixels.length := hr1 i j hi hj
    have hi2 : 0 + i * b1.info.stride + 4 * j + 4 ≤ b2.pixels.length := hr2 i j hi hj
    obtain ⟨p1, hp1, _⟩ := loadWord_isSome hi1
    obtain ⟨p2, hp2, _⟩ := loadWord_isSome hi2
    have h := hrgb j i hj hi
    simp only [Nat.zero_add] at hp1 hp2 ⊢
    rw [hp1, hp2] at h
    exact colour_bytes_of_low_bits hp1 hp2 (Option.some.inj h) k hk
  obtain ⟨hmono, hin⟩ := lineLoop_agree b1.info b1.info.height 0 _ _ s1 s2 hs1 hs2 hcol
  apply List.ext_getElem?
  intro o
  show s2.pixels[o]? = s1.pixels[o]?
  by_cases ho : b1.pixels[o]? = b2.pixels[o]?
  · exact (hmono o ho).symm
  · obtain ⟨x, y, hx, hy, rfl⟩ := hdiff o ho
    have := hin y x 3 hy hx (by decide)
    simp only [Nat.zero_add] at this
    exact this.symm

/-- Witness of C12 (amended): `translucent1x1` and `translucent1x1Alpha40`, the
pixels `0x80102030` and `0x40102030`, both end as `0xFF202020`. -/
theorem C12_alpha_does_not_influence_witness :
    (translucent1x1Alpha40.info = translucent1x1.info ∧
      translucent1x1Alpha40.pixels.length = translucent1x1.pixels.length ∧
      translucent1x1.info.format = ANDROID_BITMAP_FORMAT_RGBA_8888 ∧
      0 ≤ translucent1x1.getInfoResult ∧ 0 ≤ translucent1x1.lockPixelsResult ∧
      0 ≤ translucent1x1Alpha40.getInfoResult ∧ 0 ≤ translucent1x1Alpha40.lockPixelsResult) ∧
    Java_br_com_b256_core_engine_Engine_grayscale translucent1x1 = some translucent1x1Result ∧
    ∃ r2, Java_br_com_b256_core_engine_Engine_grayscale translucent1x1Alpha40 = some r2 ∧
      r2.pixels = translucent1x1Result.pixels :=
  ⟨by decide, by decide,
   C12_alpha_does_not_influence translucent1x1 translucent1x1Alpha40 (by decide) (by decide)
     (by decide) (by decide) (by decide) (by decide) (by decide)
     (by
       intro x y hx hy
       have hx0 : x = 0 := by
         have : x < 1 := hx
         omega
       have hy0 : y = 0 := by
         have : y < 1 := hy
         omega
       subst hx0; subst hy0
       decide)
     (by
       intro o ho
       refine ⟨0, 0, by decide, by decide, ?_⟩
       have h3 : o = 3 := by
         by_contra hne
         apply ho
         have hc : o = 0 ∨ o = 1 ∨ o = 2 ∨ 4 ≤ o := by omega
         rcases hc with rfl | rfl | rfl | h4
         · decide
         · decide
         · decide
         · rw [List.getElem?_eq_none (by simpa using h4),
             List.getElem?_eq_none (by simpa using h4)]
       rw [h3]; rfl)
     translucent1x1Result (by decide)⟩

/-! ## C13: permuting the colour bytes -/

/-- C13. The per-pixel transform of both sources is invariant under every
permutation of the three colour bytes of its input: for every pixel word `p` and
every permutation `σ` of the byte positions 0 (bits 0-7), 1 (bits 8-15) and 2
(bits 16-23), of which there are six, the word with the bytes permuted is mapped
to the same output word as `p`.  In particular the word with bits 0-7 and 16-23
exchanged (R-in-bits-0-7 byte order) gives the same output; and the identity
permutation leaves a 32-bit word as it is. -/
theorem C13_invariant_under_colour_permutation :
    (∀ (p : Nat) (σ : Equiv.Perm (Fin 3)),
      Engine.grayPixel (permuteColours σ p) = Engine.grayPixel p ∧
      Ndk.grayPixel (permuteColours σ p) = Ndk.grayPixel p) ∧
    Fintype.card (Equiv.Perm (Fin 3)) = 6 ∧
    (∀ p : Nat,
      permuteColours (Equiv.swap 0 2) p =
        alphaOf p * 2 ^ 24 + blueOf p * 2 ^ 16 + greenOf p * 2 ^ 8 + redOf p ∧
      Engine.grayPixel (alphaOf p * 2 ^ 24 + blueOf p * 2 ^ 16 + greenOf p * 2 ^ 8 + redOf p)
        = Engine.grayPixel p) ∧
    (∀ p : Nat, p < 2 ^ 32 → permuteColours 1 p = p) := by
  refine ⟨fun p σ => ⟨grayPixel_permuteColours σ p, grayPixel_permuteColours σ p⟩, ?_, ?_,
    permuteColours_one⟩
  · rw [Fintype.card_perm]; rfl
  · intro p
    have h : permuteColours (Equiv.swap 0 2) p =
        alphaOf p * 2 ^ 24 + blueOf p * 2 ^ 16 + greenOf p * 2 ^ 8 + redOf p := by
      simp [permuteColours, colourOf, Equiv.swap_apply_def]
    exact ⟨h, h ▸ grayPixel_permuteColours (Equiv.swap 0 2) p⟩

/-- Witness of C13: the word `0x80102030`; exchanging its bits 0-7 and 16-23
gives `0x80302010`, which is mapped to the same `0xFF202020`, and the identity
permutation leaves it as it is. -/
theorem C13_invariant_under_colour_permutation_witness :
    0x80102030 < 2 ^ 32 ∧
    permuteColours (Equiv.swap 0 2) 0x80102030 = 0x80302010 ∧
    Engine.grayPixel 0x80302010 = 0xFF202020 ∧
    Engine.grayPixel 0x80102030 = 0xFF202020 ∧
    permuteColours 1 0x80102030 = 0x80102030 :=
  ⟨by decide, by decide, by decide, by decide,
   C13_invariant_under_colour_permutation.2.2.2 0x80102030 (by decide)⟩

/-! ## C14: fixed points -/

/-- C14. The fixed points of the per-pixel transform are exactly the solid gray
pixels of alpha 255: for every 32-bit pixel word p, the transform maps p to p if
and only if p has alpha 255 and R == G == B.  Consequently a successfully
transformed buffer of the data model (stride at least 4*width; the same holds
for any stride that is a multiple of 4) is left unchanged if and only if every
in-range pixel was already such a pixel. -/
theorem C14_fixed_points_are_solid_gray :
    (∀ p : Nat, p < 2 ^ 32 →
      (Engine.grayPixel p = p ↔
        alphaOf p = 255 ∧ redOf p = greenOf p ∧ greenOf p = blueOf p)) ∧
    (∀ b : Bitmap, b.info.format = ANDROID_BITMAP_FORMAT_RGBA_8888 →
      0 ≤ b.getInfoResult → 0 ≤ b.lockPixelsResult →
      (4 * b.info.width ≤ b.info.stride ∨ b.info.stride % 4 = 0) →
      ∀ r, Java_br_com_b256_core_engine_Engine_grayscale b = some r →
        (r.pixels = b.pixels ↔
          ∀ x y, x < b.info.width → y < b.info.height →
            ∃ p, loadWord b.pixels (y * b.info.stride + 4 * x) = some p ∧
              alphaOf p = 255 ∧ redOf p = greenOf p ∧ greenOf p = blueOf p)) := by
  refine ⟨grayPixel_fixed_iff, ?_⟩
  intro b hf hgi hl hs r hr
  rw [engine_gates_pass hgi hf hl] at hr
  exact transform_unchanged_iff hs hr

/-- Witness of C14: the word `0xFF202020` is a fixed point, and the
buffer `gray2x2` of four solid gray pixels is returned as it was. -/
theorem C14_fixed_points_are_solid_gray_witness :
    (0xFF202020 < 2 ^ 32 ∧ Engine.grayPixel 0xFF202020 = 0xFF202020 ∧
      alphaOf 0xFF202020 = 255 ∧ redOf 0xFF202020 = greenOf 0xFF202020 ∧
      greenOf 0xFF202020 = blueOf 0xFF202020) ∧
    (gray2x2.info.format = ANDROID_BITMAP_FORMAT_RGBA_8888 ∧
      0 ≤ gray2x2.getInfoResult ∧ 0 ≤ gray2x2.lockPixelsResult ∧
      4 * gray2x2.info.width ≤ gray2x2.info.stride) ∧
    Java_br_com_b256_core_engine_Engine_grayscale gray2x2 = some scenario2x2Result ∧
    scenario2x2Result.pixels = gray2x2.pixels ∧
    ∀ x y, x < gray2x2.info.width → y < gray2x2.info.height →
      ∃ p, loadWord gray2x2.pixels (y * gray2x2.info.stride + 4 * x) = some p ∧
        alphaOf p = 255 ∧ redOf p = greenOf p ∧ greenOf p = blueOf p :=
  ⟨⟨by decide, by decide,
      (C14_fixed_points_are_solid_gray.1 0xFF202020 (by decide)).mp (by decide)⟩,
   by decide, by decide, rfl,
   (C14_fixed_points_are_solid_gray.2 gray2x2 (by decide) (by decide) (by decide)
      (Or.inl (by decide)) scenario2x2Result (by decide)).mp rfl⟩

/-! ## C15: a stride that is not validated -/

/-- C15. The stride is never checked against the width.  (1) For every RGBA8888
buffer whose getInfo and lockPixels calls succeed and whose stride is a multiple
of 4 (also below 4*width and 0, where rows overlap and words are visited more
than once): both entry points return when every visited word lies inside the
region, and whenever one returns, every visited word, at y*stride + 4*x with
x < width and y < height, ends with alpha 255 and R = G = B = floor((r+g+b)/3) of
the colour bytes first found at that offset.  (2) The buffer `overlap1x2` passes
the gates with a stride (1) that is smaller than 4*width and not a multiple of
4; its visited word at offset 0, first `0x00000000`, ends as `0x55555500`, not as
the gray `0xFF000000` of its original bytes. -/
theorem C15_unvalidated_stride :
    (∀ b : Bitmap, b.info.format = ANDROID_BITMAP_FORMAT_RGBA_8888 →
      0 ≤ b.getInfoResult → 0 ≤ b.lockPixelsResult → b.info.stride % 4 = 0 →
      ((∀ x y, x < b.info.width → y < b.info.height →
          y * b.info.stride + 4 * x + 4 ≤ b.pixels.length) →
        (∃ r, Java_br_com_b256_core_engine_Engine_grayscale b = some r) ∧
        ∃ r, Java_br_com_b256_core_ndk_NativeLib_grayscale b = some r) ∧
      ∀ r, (Java_br_com_b256_core_engine_Engine_grayscale b = some r ∨
          Java_br_com_b256_core_ndk_NativeLib_grayscale b = some r) →
        ∀ x y, x < b.info.width → y < b.info.height →
          ∃ p q, loadWord b.pixels (y * b.info.stride + 4 * x) = some p ∧
            loadWord r.pixels (y * b.info.stride + 4 * x) = some q ∧
            alphaOf q = 255 ∧
            redOf q = (redOf p + greenOf p + blueOf p) / 3 ∧
            greenOf q = (redOf p + greenOf p + blueOf p) / 3 ∧
            blueOf q = (redOf p + greenOf p + blueOf p) / 3) ∧
    (overlap1x2.info.format = ANDROID_BITMAP_FORMAT_RGBA_8888 ∧
      0 ≤ overlap1x2.getInfoResult ∧ 0 ≤ overlap1x2.lockPixelsResult ∧
      overlap1x2.info.stride < 4 * overlap1x2.info.width ∧
      overlap1x2.info.stride % 4 ≠ 0 ∧
      Java_br_com_b256_core_engine_Engine_grayscale overlap1x2 = some overlap1x2Result ∧
      Java_br_com_b256_core_ndk_NativeLib_grayscale overlap1x2 = some overlap1x2Result ∧
      loadWord overlap1x2.pixels (0 * overlap1x2.info.stride + 4 * 0) = some 0x00000000 ∧
      loadWord overlap1x2Result.pixels (0 * overlap1x2.info.stride + 4 * 0)
        = some 0x55555500 ∧
      Engine.grayPixel 0x00000000 = 0xFF000000 ∧
      alphaOf 0x55555500 ≠ 255 ∧ blueOf 0x55555500 ≠ redOf 0x55555500) := by
  refine ⟨?_, by decide⟩
  intro b hf hgi hl hstride
  rw [engine_gates_pass hgi hf hl, ndk_gates_pass hgi hf hl]
  simp only [or_self]
  refine ⟨fun hacc => ⟨transform_total_of_accesses hacc, transform_total_of_accesses hacc⟩, ?_⟩
  intro r hr x y hx hy
  obtain ⟨p, hp, hq⟩ := transform_aligned hstride hr x y hx hy
  obtain ⟨h1, h2, h3, h4, _⟩ := grayPixel_channels p
  exact ⟨p, _, hp, hq, h4, h1, h2, h3⟩

/-- Witness of C15: `overlapAligned2x2`, stride 4 for rows of 8 bytes, whose word
at offset 4 is visited twice; the words `0x80306090`, `0x00102030`, `0x40FFFFFF`
end as `0xFF606060`, `0xFF202020`, `0xFFFFFFFF`. -/
theorem C15_unvalidated_stride_witness :
    (overlapAligned2x2.info.format = ANDROID_BITMAP_FORMAT_RGBA_8888 ∧
      0 ≤ overlapAligned2x2.getInfoResult ∧ 0 ≤ overlapAligned2x2.lockPixelsResult ∧
      overlapAligned2x2.info.stride % 4 = 0 ∧
      overlapAligned2x2.info.stride < 4 * overlapAligned2x2.info.width) ∧
    Java_br_com_b256_core_engine_Engine_grayscale overlapAligned2x2
      = some overlapAligned2x2Result ∧
    ∀ x y, x < overlapAligned2x2.info.width → y < overlapAligned2x2.info.height →
      ∃ p q, loadWord overlapAligned2x2.pixels (y * overlapAligned2x2.info.stride + 4 * x)
          = some p ∧
        loadWord overlapAligned2x2Result.pixels (y * overlapAligned2x2.info.stride + 4 * x)
          = some q ∧
        alphaOf q = 255 ∧
        redOf q = (redOf p + greenOf p + blueOf p) / 3 ∧
        greenOf q = (redOf p + greenOf p + blueOf p) / 3 ∧
        blueOf q = (redOf p + greenOf p + blueOf p) / 3 :=
  ⟨by decide, by decide,
   (C15_unvalidated_stride.1 overlapAligned2x2 (by decide) (by decide) (by decide)
      (by decide)).2 overlapAligned2x2Result (Or.inl (by decide))⟩

end B256
